import Mathlib

/-!
# hin::lf_queue — a sharded queue of single-threaded FIFOs

A shallow embedding of `lfqueue_stptr.h`, executed sequentially (one thread
runs a public operation from start to end with no other thread touching the
shard table in between).

* `std::queue<T>` is a `List T`: `front()` is the head, `push`/`emplace`
  append at the back, `pop()` drops the head.
* The 32 `std::queue<T>` objects allocated by the constructor are the only
  ones that ever exist; a non-null `pointer` is the identity of one of them
  (`Fin num_queues`), `nullptr` is `none`.  `lf_queue.heap` holds the contents
  of each object, `lf_queue.data_` is the shard table (`std::array`).
* `get_index()` only supplies the starting position of a scan.  Its value is
  an argument (`starting_position`) of every operation here, so every theorem
  holds whatever the selector returns.  The selector itself is `get_index`,
  a function of its three thread-local variables and of what the hardware
  reports.
* Several threads are a step relation (`conc_step`) on the table together
  with the guards alive: one step is one atomic operation on a handle, with
  the bookkeeping of the guard object that performs it.
* `int` values are integers with the wrap written out (`int_succ`,
  `int_and_3`), `unsigned int` values are naturals reduced modulo `2 ^ 32`.
* Loops of the source without a bound (`acquire_queue`) take a fuel argument
  and return `none` when it runs out.
-/

namespace hin

/-! ## Constants and data model -/

/-- Cache-line alignment, `static constexpr int alignment = 64`. -/
abbrev alignment : Nat := 64

/-- Number of shards, `static constexpr int num_queues = 32`. -/
abbrev num_queues : Nat := 32

/-- Index mask, `static constexpr int queue_mask = num_queues - 1`. -/
abbrev queue_mask : Nat := num_queues - 1

/-- The type `std::queue<T>`: the head of the list is the front. -/
abbrev underlying_type (T : Type) : Type := List T

/-- The type `underlying_type*`: `none` is `nullptr`, `some a` is the address
of the `a`-th queue object allocated by the constructor. -/
abbrev pointer : Type := Option (Fin num_queues)

/-- One slot of the shard table, `queue_entry<pointer, alignment>`: the
atomically exchanged ownership handle and the "has data" flag.
`queue_entry()` initialises `dirty_` to false. -/
structure queue_entry where
  atomic_ptr : pointer
  dirty_ : Bool
deriving DecidableEq, Repr

/-- The queue object: the shard table `data_` and the contents of the queue
objects the handles point to. -/
@[ext]
structure lf_queue (T : Type) where
  data_ : Fin num_queues → queue_entry
  heap : Fin num_queues → underlying_type T

/-- The guard `queue_holder`: the index it acquired and the pointer it took
out of that slot (`data_` is the queue passed along explicitly).  Every
`index_` the source constructs is `0` or a value masked with `queue_mask`. -/
structure queue_holder where
  index_ : Fin num_queues
  ptr_ : pointer
deriving DecidableEq, Repr

variable {T : Type}

/-- Constructor `lf_queue()`: slot `i` receives a freshly allocated empty
queue (the `i`-th allocation), every `dirty_` flag is false. -/
def lf_queue.new : lf_queue T :=
  { data_ := fun i => { atomic_ptr := some i, dirty_ := false }
    heap := fun _ => [] }

/-- The call `data_[i].store(p, order)`. -/
def lf_queue.store (q : lf_queue T) (i : Fin num_queues) (p : pointer) : lf_queue T :=
  { q with data_ := Function.update q.data_ i { q.data_ i with atomic_ptr := p } }

/-- The call `data_[i].dirty_.store(b, order)`. -/
def lf_queue.store_dirty (q : lf_queue T) (i : Fin num_queues) (b : Bool) : lf_queue T :=
  { q with data_ := Function.update q.data_ i { q.data_ i with dirty_ := b } }

/-- Writing the contents `l` into the queue object at address `p`. -/
def lf_queue.write (q : lf_queue T) (p : Fin num_queues) (l : underlying_type T) : lf_queue T :=
  { q with heap := Function.update q.heap p l }

/-- The expression `(starting_position + i) & queue_mask`, with the sum taken
in `unsigned int` arithmetic. -/
def index_at (starting_position i : Nat) : Fin num_queues :=
  ⟨((starting_position + i) % 2 ^ 32) &&& queue_mask,
    Nat.lt_succ_of_le Nat.and_le_right⟩

/-! ## The guard -/

/-- Destructor `~queue_holder()`: with a non-null pointer, set the flag to
`!queue().empty()` and store the pointer back; otherwise nothing. -/
def queue_holder.destructor (g : queue_holder) (q : lf_queue T) : lf_queue T :=
  match g.ptr_ with
  | some p => (q.store_dirty g.index_ (!(q.heap p).isEmpty)).store g.index_ (some p)
  | none => q

/-- Move assignment `operator=(queue_holder&& other)`: store the current
pointer into the current index, then take over the index and pointer of
`other` and null `other`.  Returns the new target, the new source and the
table. -/
def queue_holder.move_assign (g other : queue_holder) (q : lf_queue T) :
    queue_holder × queue_holder × lf_queue T :=
  ({ index_ := other.index_, ptr_ := other.ptr_ },
   { index_ := other.index_, ptr_ := none },
   q.store g.index_ g.ptr_)

/-! ## Acquisition -/

/-- The loop of `acquire_queue_dequeue` from counter value `i` with `n`
iterations left (`n = num_queues - i`).  A slot whose flag is false is
skipped; a slot whose pointer is null is skipped; otherwise the exchange
with `nullptr` succeeds (no other thread runs) and the guard is returned.
After the last iteration the result is `{0, nullptr, data_}`. -/
def acquire_queue_dequeue_from (q : lf_queue T) (starting_position : Nat) :
    Nat → Nat → queue_holder × lf_queue T
  | 0, _ => ({ index_ := 0, ptr_ := none }, q)
  | n + 1, i =>
    let index := index_at starting_position i
    if !(q.data_ index).dirty_ then
      acquire_queue_dequeue_from q starting_position n (i + 1)
    else
      match (q.data_ index).atomic_ptr with
      | some p => ({ index_ := index, ptr_ := some p }, q.store index none)
      | none => acquire_queue_dequeue_from q starting_position n (i + 1)

/-- The function `acquire_queue_dequeue()`, given what `get_index()` returned. -/
def acquire_queue_dequeue (q : lf_queue T) (starting_position : Nat) :
    queue_holder × lf_queue T :=
  acquire_queue_dequeue_from q starting_position num_queues 0

/-- The loop `for(int i = 0;; ++i)` of `acquire_queue` from counter value
`i`; `none` when the fuel runs out before a non-null handle is met. -/
def acquire_queue_from (q : lf_queue T) (starting_position : Nat) :
    Nat → Nat → Option (queue_holder × lf_queue T)
  | 0, _ => none
  | fuel + 1, i =>
    let index := index_at starting_position i
    match (q.data_ index).atomic_ptr with
    | some p => some ({ index_ := index, ptr_ := some p }, q.store index none)
    | none => acquire_queue_from q starting_position fuel (i + 1)

/-- The function `acquire_queue()`, given what `get_index()` returned. -/
def acquire_queue (fuel : Nat) (q : lf_queue T) (starting_position : Nat) :
    Option (queue_holder × lf_queue T) :=
  acquire_queue_from q starting_position fuel 0

/-! ## Public operations -/

/-- The operation `enqueue(arg)`: result and final table, `none` if the
acquisition does not return within the fuel. -/
def enqueue (fuel : Nat) (q : lf_queue T) (starting_position : Nat) (arg : T) :
    Option (Bool × lf_queue T) :=
  match acquire_queue fuel q starting_position with
  | none => none
  | some (queue_guard, q1) =>
    match queue_guard.ptr_ with
    | none => some (false, queue_guard.destructor q1)
    | some p =>
      some (true, queue_guard.destructor (q1.write p (q1.heap p ++ [arg])))

/-- The operation `enqueue_bulk(iter, count)`: `iter` is the sequence the
iterator walks, of which the loop pushes the first `count` elements. -/
def enqueue_bulk (fuel : Nat) (q : lf_queue T) (starting_position : Nat)
    (iter : List T) (count : Nat) : Option (Bool × lf_queue T) :=
  match acquire_queue fuel q starting_position with
  | none => none
  | some (queue_guard, q1) =>
    match queue_guard.ptr_ with
    | none => some (false, queue_guard.destructor q1)
    | some p =>
      some (true, queue_guard.destructor (q1.write p (q1.heap p ++ iter.take count)))

/-- The operation `try_dequeue(item)`: result, final value of the `item`
reference, final table. -/
def try_dequeue (q : lf_queue T) (starting_position : Nat) (item : T) :
    Bool × T × lf_queue T :=
  match acquire_queue_dequeue q starting_position with
  | (guard, q1) =>
    match guard.ptr_ with
    | none => (false, item, guard.destructor q1)
    | some p =>
      match q1.heap p with
      | front :: rest => (true, front, guard.destructor (q1.write p rest))
      | [] => (false, item, guard.destructor q1)

/-- The `while` loop of `try_dequeue_bulk`, one fuel unit per evaluation of
the loop condition.  `queue` is a copy of the acquired queue
(`auto queue = queue_guard.queue();`), so the pops act on the copy and the
table is only changed by acquisitions, the move assignment and the
destructor that runs at each `return`.  `hints k` is what `get_index()`
returns in the acquisition made after `k` increments of `iters`.
Result: returned count, the values written through `output`, final table. -/
def try_dequeue_bulk_loop (hints : Nat → Nat) (items : Nat) :
    Nat → lf_queue T → queue_holder → Nat → Nat → List T →
    Option (Nat × List T × lf_queue T)
  | 0, _, _, _, _, _ => none
  | fuel + 1, q, queue_guard, count, iters, output =>
    match queue_guard.ptr_ with
    | none => some (count, output, queue_guard.destructor q)
    | some p =>
      if count < items then
        let queue := q.heap p
        let add := min queue.length (items - count)
        let count1 := count + add
        let output1 := output ++ queue.take add
        if count1 = items then
          some (count1, output1, queue_guard.destructor q)
        else if iters = num_queues then
          some (count1, output1, queue_guard.destructor q)
        else
          match acquire_queue_dequeue q (hints (iters + 1)) with
          | (acquired, q1) =>
            match queue_guard.move_assign acquired q1 with
            | (queue_guard1, moved_from, q2) =>
              try_dequeue_bulk_loop hints items fuel (moved_from.destructor q2)
                queue_guard1 count1 (iters + 1) output1
      else some (count, output, queue_guard.destructor q)

/-- The operation `try_dequeue_bulk(output, items)`.  The loop condition is
evaluated at most `num_queues + 1` times (`iters` runs from 0 to
`num_queues`), see `try_dequeue_bulk_total`. -/
def try_dequeue_bulk (q : lf_queue T) (hints : Nat → Nat) (items : Nat) :
    Option (Nat × List T × lf_queue T) :=
  match acquire_queue_dequeue q (hints 0) with
  | (queue_guard, q1) =>
    try_dequeue_bulk_loop hints items (num_queues + 1) q1 queue_guard 0 0 []

/-! ## Observations used in the statements -/

/-- Total number of elements held by the 32 queue objects. -/
def stored (q : lf_queue T) : Nat :=
  ∑ p : Fin num_queues, (q.heap p).length

/-- Every shard's handle is present (no guard is alive). -/
def quiescent (q : lf_queue T) : Prop :=
  ∀ i : Fin num_queues, (q.data_ i).atomic_ptr ≠ none

/-- A dequeuer may take shard `j`: flag true and handle present. -/
def dirty_present (q : lf_queue T) (j : Fin num_queues) : Prop :=
  (q.data_ j).dirty_ = true ∧ (q.data_ j).atomic_ptr ≠ none

/-- After a call that took the table from `q` to `q1`, every slot holds the
same pointer as before the call and none is empty. -/
def handles_restored (q q1 : lf_queue T) : Prop :=
  ∀ i : Fin num_queues,
    (q1.data_ i).atomic_ptr = (q.data_ i).atomic_ptr ∧ (q1.data_ i).atomic_ptr ≠ none

instance dirty_present_decidable (q : lf_queue T) (j : Fin num_queues) :
    Decidable (dirty_present q j) :=
  inferInstanceAs (Decidable ((q.data_ j).dirty_ = true ∧ (q.data_ j).atomic_ptr ≠ none))

/-- Relation between the table `q`, a live guard `g` and the handles `orig`
the table had before the guard was taken: a null guard holds nothing and the
handles are `orig`; a non-null guard holds exactly the pointer `orig` had at
its index, that slot is empty, and every other handle is as in `orig`. -/
def guard_inv (orig : Fin num_queues → pointer) (q : lf_queue T) (g : queue_holder) : Prop :=
  match g.ptr_ with
  | none => ∀ i, (q.data_ i).atomic_ptr = orig i
  | some p => orig g.index_ = some p ∧
      ∀ i, (q.data_ i).atomic_ptr = if i = g.index_ then none else orig i

/-- The table in which shard `j` holds the elements `l` and every other
shard is as constructed: all handles present, the flag of `j` true exactly
when `l` is non-empty. -/
def single_shard (j : Fin num_queues) (l : List T) : lf_queue T :=
  { data_ := fun i => { atomic_ptr := some i, dirty_ := decide (i = j) && !l.isEmpty }
    heap := fun i => if i = j then l else [] }

/-- A sequential client: `enqueue` of each element of the list in order,
every call with the same starting position; the return values and the final
table (`none` if a call does not return within the fuel). -/
def enqueue_all (fuel : Nat) (starting_position : Nat) :
    List T → lf_queue T → Option (List Bool × lf_queue T)
  | [], q => some ([], q)
  | x :: xs, q =>
    match enqueue fuel q starting_position x with
    | none => none
    | some (b, q1) =>
      match enqueue_all fuel starting_position xs q1 with
      | none => none
      | some (bs, q2) => some (b :: bs, q2)

/-- A sequential client: `n` calls of `try_dequeue` on the same variable, the
call number `k` (counted from the given start) with starting position
`hints k`; for every call its return value and the value of the variable
after it, and the final table. -/
def try_dequeue_n (hints : Nat → Nat) : Nat → Nat → lf_queue T → T →
    List (Bool × T) × lf_queue T
  | 0, _, q, _ => ([], q)
  | n + 1, k, q, item =>
    match try_dequeue q (hints k) item with
    | (b, item1, q1) =>
      match try_dequeue_n hints n (k + 1) q1 item1 with
      | (rs, q2) => ((b, item1) :: rs, q2)

/-! ## Further guard operations -/

/-- Move constructor `queue_holder(queue_holder&& other)`: the new guard
takes the index and pointer of `other`, and `other.ptr_` becomes null.
Returns the new guard and the moved-from source. -/
def queue_holder.move_construct (other : queue_holder) : queue_holder × queue_holder :=
  ({ index_ := other.index_, ptr_ := other.ptr_ },
   { index_ := other.index_, ptr_ := none })

/-- What the specification asks of re-assignment, in its words: run the
destructor of the target, then let the target take over the index and queue
of the source (the source is left null).  Same result shape as
`queue_holder.move_assign`. -/
def queue_holder.destroy_then_take (g other : queue_holder) (q : lf_queue T) :
    queue_holder × queue_holder × lf_queue T :=
  ({ index_ := other.index_, ptr_ := other.ptr_ },
   { index_ := other.index_, ptr_ := none },
   g.destructor q)

/-- The loop of `try_dequeue_bulk` once more, recording in `drained` the
index of the guard at every execution of the loop body (each execution
copies and drains the queue of the guard then held).  The control flow and
every other component are those of `try_dequeue_bulk_loop`. -/
def try_dequeue_bulk_traced_loop (hints : Nat → Nat) (items : Nat) :
    Nat → lf_queue T → queue_holder → Nat → Nat → List T → List (Fin num_queues) →
    Option (List (Fin num_queues) × Nat × List T × lf_queue T)
  | 0, _, _, _, _, _, _ => none
  | fuel + 1, q, queue_guard, count, iters, output, drained =>
    match queue_guard.ptr_ with
    | none => some (drained, count, output, queue_guard.destructor q)
    | some p =>
      if count < items then
        let queue := q.heap p
        let add := min queue.length (items - count)
        let count1 := count + add
        let output1 := output ++ queue.take add
        let drained1 := drained ++ [queue_guard.index_]
        if count1 = items then
          some (drained1, count1, output1, queue_guard.destructor q)
        else if iters = num_queues then
          some (drained1, count1, output1, queue_guard.destructor q)
        else
          match acquire_queue_dequeue q (hints (iters + 1)) with
          | (acquired, q1) =>
            match queue_guard.move_assign acquired q1 with
            | (queue_guard1, moved_from, q2) =>
              try_dequeue_bulk_traced_loop hints items fuel (moved_from.destructor q2)
                queue_guard1 count1 (iters + 1) output1 drained1
      else some (drained, count, output, queue_guard.destructor q)

/-- The operation `try_dequeue_bulk` with the record of drained shards. -/
def try_dequeue_bulk_traced (q : lf_queue T) (hints : Nat → Nat) (items : Nat) :
    Option (List (Fin num_queues) × Nat × List T × lf_queue T) :=
  match acquire_queue_dequeue q (hints 0) with
  | (queue_guard, q1) =>
    try_dequeue_bulk_traced_loop hints items (num_queues + 1) q1 queue_guard 0 0 [] []

/-! ## Sequential use -/

/-- The tables one thread at a time can bring the queue to: the constructed
queue, and what any call of a public operation that returns leaves behind,
with arbitrary hints, arguments and fuel (`enqueue_bulk` with a `count` the
sequence can supply). -/
inductive seq_reachable : lf_queue T → Prop
  | constructed : seq_reachable lf_queue.new
  | by_enqueue {q q1 : lf_queue T} (fuel s : Nat) (x : T) (b : Bool) :
      seq_reachable q → enqueue fuel q s x = some (b, q1) → seq_reachable q1
  | by_enqueue_bulk {q q1 : lf_queue T} (fuel s : Nat) (xs : List T) (count : Nat)
      (b : Bool) :
      seq_reachable q → count ≤ xs.length →
      enqueue_bulk fuel q s xs count = some (b, q1) → seq_reachable q1
  | by_try_dequeue {q : lf_queue T} (s : Nat) (item : T) :
      seq_reachable q → seq_reachable (try_dequeue q s item).2.2
  | by_try_dequeue_bulk {q q1 : lf_queue T} (hints : Nat → Nat) (items k : Nat)
      (out : List T) :
      seq_reachable q → try_dequeue_bulk q hints items = some (k, out, q1) →
      seq_reachable q1

/-- Every slot holds the pointer the constructor gave it and every flag
says exactly whether the queue object of its shard holds data. -/
def seq_inv (q : lf_queue T) : Prop :=
  (∀ i, (q.data_ i).atomic_ptr = some i) ∧
  (∀ i, (q.data_ i).dirty_ = !(q.heap i).isEmpty)

/-! ## The selector `get_index` -/

/-- The three `static thread_local` variables of `get_index`: `cpuid`
(`unsigned int`), `countdown` (`int`) and `local_offset` (`int`). -/
structure thread_locals where
  cpuid : Nat
  countdown : Int
  local_offset : Nat
deriving DecidableEq, Repr

/-- The expression `k & 3` for an `int` `k`: the two low bits of its 32-bit
two's-complement representation. -/
def int_and_3 (k : Int) : Nat :=
  (k % 2 ^ 32).toNat &&& 3

/-- The value an `int` holds after adding 1: the sum wraps from `INT_MAX`
to `INT_MIN`, as `fetch_add` on a `std::atomic<int>` does. -/
def int_succ (k : Int) : Int :=
  (k + 1 + 2 ^ 31) % 2 ^ 32 - 2 ^ 31

/-- Initialisation of the thread-local variables at the first call of a
thread: `cpuid = sched_getcpu() * 4` converted to `unsigned int`,
`countdown = 500`, `local_offset = thread_offset_.fetch_add(1) & 3`.
Arguments: what `sched_getcpu()` returns and the value of the shared counter
`thread_offset_` (an `int`); result: the variables and the new value of the
counter. -/
def thread_locals.init (sched_getcpu : Int) (thread_offset_ : Int) : thread_locals × Int :=
  ({ cpuid := ((sched_getcpu * 4) % 2 ^ 32).toNat
     countdown := 500
     local_offset := int_and_3 thread_offset_ },
   int_succ thread_offset_)

/-- The body of `get_index()` after initialisation.  `tsc_aux` is the value
`__rdtscp(&cpuid)` writes into `cpuid` if this call executes it.  Sums and
products are those of `unsigned int`.  Result: the returned value and the
thread-local variables after the call. -/
def get_index (tl : thread_locals) (tsc_aux : Nat) : Nat × thread_locals :=
  if tl.countdown > 0 then
    ((tl.cpuid + tl.local_offset) % 2 ^ 32, { tl with countdown := tl.countdown - 1 })
  else
    ((tsc_aux * 4 % 2 ^ 32 + tl.local_offset) % 2 ^ 32,
      { tl with cpuid := tsc_aux * 4 % 2 ^ 32, countdown := 500 })

/-- A run of `n` consecutive calls of `get_index()` on one thread, the call
number `k` (counted from the given start) with `tsc_aux k` as the value the
hardware would report; the returned values in order and the thread-local
variables at the end. -/
def get_index_calls (tsc_aux : Nat → Nat) : Nat → Nat → thread_locals →
    List Nat × thread_locals
  | 0, _, tl => ([], tl)
  | n + 1, k, tl =>
    match get_index tl (tsc_aux k) with
    | (v, tl1) =>
      match get_index_calls tsc_aux n (k + 1) tl1 with
      | (vs, tl2) => (v :: vs, tl2)

/-! ## Several threads -/

/-- A configuration of the queue used by any number of threads: the shared
table (with the contents of the queue objects) and the guard objects alive
in all threads, each under an identity of its own. -/
structure shared_state (T : Type) where
  table : lf_queue T
  guards : Nat → Option queue_holder

/-- The configuration after the constructor: no guard is alive. -/
def shared_state.init : shared_state T :=
  { table := lf_queue.new, guards := fun _ => none }

/-- One atomic step of some thread.
* `acquire`: the `compare_exchange_strong(ptr, nullptr)` of
  `acquire_queue_dequeue` or `acquire_queue` succeeds at index `i`, which it
  does exactly when the handle still holds the non-null pointer `p` loaded
  before; the thread then returns the new guard `{i, p}`.
* `not_found`: `acquire_queue_dequeue` returns `{0, nullptr}`.
* `access`: the holder of a non-null guard changes the queue it points to.
* `destroy`: a guard is destroyed (`~queue_holder()`).
* `move_assign`: `operator=(queue_holder&&)` of one live guard to another,
  whatever the target holds (the operator makes no test).
* `move_construct`: `queue_holder(queue_holder&&)` creates a guard from
  another.
A failed exchange, a skipped slot and the loads change nothing. -/
inductive conc_step : shared_state T → shared_state T → Prop
  | acquire (s : shared_state T) (id : Nat) (i p : Fin num_queues) :
      s.guards id = none → (s.table.data_ i).atomic_ptr = some p →
      conc_step s
        { table := s.table.store i none
          guards := Function.update s.guards id (some { index_ := i, ptr_ := some p }) }
  | not_found (s : shared_state T) (id : Nat) :
      s.guards id = none →
      conc_step s
        { table := s.table
          guards := Function.update s.guards id (some { index_ := 0, ptr_ := none }) }
  | access (s : shared_state T) (id : Nat) (g : queue_holder) (p : Fin num_queues)
      (l : List T) :
      s.guards id = some g → g.ptr_ = some p →
      conc_step s { table := s.table.write p l, guards := s.guards }
  | destroy (s : shared_state T) (id : Nat) (g : queue_holder) :
      s.guards id = some g →
      conc_step s
        { table := g.destructor s.table
          guards := Function.update s.guards id none }
  | move_assign (s : shared_state T) (id idr : Nat) (g r : queue_holder) :
      id ≠ idr → s.guards id = some g → s.guards idr = some r →
      conc_step s
        { table := (g.move_assign r s.table).2.2
          guards := Function.update
            (Function.update s.guards id (some (g.move_assign r s.table).1))
            idr (some (g.move_assign r s.table).2.1) }
  | move_construct (s : shared_state T) (id idr : Nat) (r : queue_holder) :
      id ≠ idr → s.guards id = none → s.guards idr = some r →
      conc_step s
        { table := s.table
          guards := Function.update
            (Function.update s.guards id (some r.move_construct.1))
            idr (some r.move_construct.2) }

/-- The configurations reachable from the constructed queue by any
interleaving of steps. -/
inductive conc_reachable : shared_state T → Prop
  | init : conc_reachable shared_state.init
  | next {s s1 : shared_state T} : conc_reachable s → conc_step s s1 → conc_reachable s1

/-- Ownership bookkeeping of a configuration: a handle only ever holds the
queue object of its own shard; a guard that holds a queue object holds the
one of its index, whose handle is then empty; no two guards hold the same
queue object. -/
def conc_inv (s : shared_state T) : Prop :=
  (∀ i p, (s.table.data_ i).atomic_ptr = some p → p = i) ∧
  (∀ id g p, s.guards id = some g → g.ptr_ = some p →
    g.index_ = p ∧ (s.table.data_ p).atomic_ptr = none) ∧
  (∀ id1 id2 g1 g2 p, s.guards id1 = some g1 → s.guards id2 = some g2 →
    g1.ptr_ = some p → g2.ptr_ = some p → id1 = id2)

/-- The configuration a single thread reaches on the constructed queue by
`auto g = q.acquire_queue_dequeue(); g = q.acquire_queue_dequeue();`, at the
end of the assignment: both calls return the guard `{0, nullptr}` (`g` is
guard 0, the temporary guard 1), and the table is what the move assignment
leaves. -/
def lost_queue_state : shared_state Nat :=
  { table := (queue_holder.move_assign { index_ := 0, ptr_ := none }
      { index_ := 0, ptr_ := none } (lf_queue.new : lf_queue Nat)).2.2
    guards := Function.update
      (Function.update
        (Function.update
          (Function.update (shared_state.init : shared_state Nat).guards 0
            (some { index_ := 0, ptr_ := none }))
          1 (some { index_ := 0, ptr_ := none }))
        0 (some { index_ := 0, ptr_ := none }))
      1 (some { index_ := 0, ptr_ := none }) }

/-! ## Index arithmetic -/

theorem index_at_val (s i : Nat) : (index_at s i).val = (s + i) % 32 := by
  have h := Nat.and_pow_two_sub_one_eq_mod ((s + i) % 2 ^ 32) 5
  have h2 : (index_at s i).val = ((s + i) % 2 ^ 32) &&& (2 ^ 5 - 1) := rfl
  rw [h2, h]
  omega

theorem index_at_surj (s : Nat) (j : Fin num_queues) :
    ∃ i, i < num_queues ∧ index_at s i = j := by
  refine ⟨(j.val + 32 - s % 32) % 32, Nat.mod_lt _ (by decide), ?_⟩
  apply Fin.ext
  rw [index_at_val]
  have hj : j.val < 32 := j.isLt
  omega

theorem index_at_inj (s i k : Nat) (hi : i < num_queues) (hk : k < num_queues)
    (h : index_at s i = index_at s k) : i = k := by
  have h1 := congrArg Fin.val h
  rw [index_at_val, index_at_val] at h1
  have hi1 : i < 32 := hi
  have hk1 : k < 32 := hk
  omega

/-! ## Acquisition lemmas -/

theorem acquire_queue_dequeue_from_spec (q : lf_queue T) (s : Nat) (n i : Nat) :
    (acquire_queue_dequeue_from q s n i = ({ index_ := 0, ptr_ := none }, q) ∧
        ∀ k, i ≤ k → k < i + n → ¬ dirty_present q (index_at s k)) ∨
    (∃ m p, i ≤ m ∧ m < i + n ∧
        (∀ k, i ≤ k → k < m → ¬ dirty_present q (index_at s k)) ∧
        (q.data_ (index_at s m)).dirty_ = true ∧
        (q.data_ (index_at s m)).atomic_ptr = some p ∧
        acquire_queue_dequeue_from q s n i =
          ({ index_ := index_at s m, ptr_ := some p }, q.store (index_at s m) none)) := by
  induction n generalizing i with
  | zero =>
    left
    exact ⟨rfl, fun k h1 h2 => by omega⟩
  | succ n ih =>
    unfold acquire_queue_dequeue_from
    by_cases hd : (q.data_ (index_at s i)).dirty_ = true
    · cases hp : (q.data_ (index_at s i)).atomic_ptr with
      | some p =>
        right
        refine ⟨i, p, le_refl _, by omega, fun k h1 h2 => by omega, hd, hp, ?_⟩
        simp [hd, hp]
      | none =>
        have hi : ¬ dirty_present q (index_at s i) := fun h => h.2 hp
        simp only [hd, hp, Bool.not_true, Bool.false_eq_true, if_false]
        rcases ih (i + 1) with ⟨h1, h2⟩ | ⟨m, p, h1, h2, h3, h4, h5, h6⟩
        · left
          refine ⟨h1, fun k hk1 hk2 => ?_⟩
          rcases Nat.eq_or_lt_of_le hk1 with rfl | hlt
          · exact hi
          · exact h2 k hlt (by omega)
        · right
          refine ⟨m, p, by omega, by omega, fun k hk1 hk2 => ?_, h4, h5, h6⟩
          rcases Nat.eq_or_lt_of_le hk1 with rfl | hlt
          · exact hi
          · exact h3 k hlt hk2
    · have hi : ¬ dirty_present q (index_at s i) := fun h => hd h.1
      simp only [Bool.not_eq_true] at hd
      simp only [hd, Bool.not_false, if_true]
      rcases ih (i + 1) with ⟨h1, h2⟩ | ⟨m, p, h1, h2, h3, h4, h5, h6⟩
      · left
        refine ⟨h1, fun k hk1 hk2 => ?_⟩
        rcases Nat.eq_or_lt_of_le hk1 with rfl | hlt
        · exact hi
        · exact h2 k hlt (by omega)
      · right
        refine ⟨m, p, by omega, by omega, fun k hk1 hk2 => ?_, h4, h5, h6⟩
        rcases Nat.eq_or_lt_of_le hk1 with rfl | hlt
        · exact hi
        · exact h3 k hlt hk2

/-- Outcome of `acquire_queue_dequeue`: either no shard is both flagged and
present and the table is untouched, or the first such shard in scan order is
taken. -/
theorem acquire_queue_dequeue_spec (q : lf_queue T) (s : Nat) :
    (acquire_queue_dequeue q s = ({ index_ := 0, ptr_ := none }, q) ∧
        ∀ j, ¬ dirty_present q j) ∨
    (∃ m p, m < num_queues ∧
        (∀ k, k < m → ¬ dirty_present q (index_at s k)) ∧
        (q.data_ (index_at s m)).dirty_ = true ∧
        (q.data_ (index_at s m)).atomic_ptr = some p ∧
        acquire_queue_dequeue q s =
          ({ index_ := index_at s m, ptr_ := some p }, q.store (index_at s m) none)) := by
  rcases acquire_queue_dequeue_from_spec q s num_queues 0 with
    ⟨h1, h2⟩ | ⟨m, p, _, h2, h3, h4, h5, h6⟩
  · left
    refine ⟨h1, fun j => ?_⟩
    obtain ⟨i, hi, rfl⟩ := index_at_surj s j
    exact h2 i (Nat.zero_le _) (by omega)
  · right
    exact ⟨m, p, by omega, fun k hk => h3 k (Nat.zero_le _) hk, h4, h5, h6⟩

theorem acquire_queue_from_spec (q : lf_queue T) (s fuel i m : Nat) (p : Fin num_queues)
    (him : i ≤ m) (hf : m < i + fuel)
    (hfirst : ∀ k, i ≤ k → k < m → (q.data_ (index_at s k)).atomic_ptr = none)
    (hp : (q.data_ (index_at s m)).atomic_ptr = some p) :
    acquire_queue_from q s fuel i =
      some ({ index_ := index_at s m, ptr_ := some p }, q.store (index_at s m) none) := by
  induction fuel generalizing i with
  | zero => omega
  | succ fuel ih =>
    unfold acquire_queue_from
    rcases Nat.eq_or_lt_of_le him with rfl | hlt
    · simp [hp]
    · have h0 := hfirst i (le_refl _) hlt
      simp only [h0]
      exact ih (i + 1) hlt (by omega) (fun k hk1 hk2 => hfirst k (by omega) hk2)

/-- Some handle is present: the scan order from `s` has a first present one
among its first 32 positions. -/
theorem exists_first_present (q : lf_queue T) (s : Nat)
    (h : ∃ j, (q.data_ j).atomic_ptr ≠ none) :
    ∃ m p, m < num_queues ∧
      (∀ k, k < m → (q.data_ (index_at s k)).atomic_ptr = none) ∧
      (q.data_ (index_at s m)).atomic_ptr = some p := by
  classical
  obtain ⟨j, hj⟩ := h
  obtain ⟨i, hi, rfl⟩ := index_at_surj s j
  have hex : ∃ m, (q.data_ (index_at s m)).atomic_ptr ≠ none := ⟨i, hj⟩
  have hle : Nat.find hex ≤ i := Nat.find_min' hex hj
  obtain ⟨p, hp⟩ := Option.ne_none_iff_exists'.mp (Nat.find_spec hex)
  refine ⟨Nat.find hex, p, by omega, fun k hk => ?_, hp⟩
  have := Nat.find_min hex hk
  simpa using this

theorem acquire_queue_dequeue_none (q : lf_queue T) (s : Nat)
    (h : ∀ j, ¬ dirty_present q j) :
    acquire_queue_dequeue q s = ({ index_ := 0, ptr_ := none }, q) := by
  rcases acquire_queue_dequeue_spec q s with ⟨h1, _⟩ | ⟨m, p, _, _, h3, h4, _⟩
  · exact h1
  · exact absurd ⟨h3, by simp [h4]⟩ (h (index_at s m))

theorem acquire_queue_dequeue_first (q : lf_queue T) (s m : Nat) (p : Fin num_queues)
    (hm : m < num_queues)
    (hfirst : ∀ k, k < m → ¬ dirty_present q (index_at s k))
    (hd : (q.data_ (index_at s m)).dirty_ = true)
    (hp : (q.data_ (index_at s m)).atomic_ptr = some p) :
    acquire_queue_dequeue q s =
      ({ index_ := index_at s m, ptr_ := some p }, q.store (index_at s m) none) := by
  have hm_ok : dirty_present q (index_at s m) := ⟨hd, by simp [hp]⟩
  rcases acquire_queue_dequeue_spec q s with ⟨_, h2⟩ | ⟨m1, p1, _, h2, h3, h4, h5⟩
  · exact absurd hm_ok (h2 _)
  · have hm1_ok : dirty_present q (index_at s m1) := ⟨h3, by simp [h4]⟩
    have hmm : m1 = m := by
      rcases Nat.lt_trichotomy m1 m with hlt | heq | hgt
      · exact absurd hm1_ok (hfirst m1 hlt)
      · exact heq
      · exact absurd hm_ok (h2 m hgt)
    subst hmm
    have hpp : p1 = p := Option.some.inj (h4.symm.trans hp)
    subst hpp
    exact h5

/-! ## State lemmas -/

@[simp] theorem store_heap (q : lf_queue T) (i : Fin num_queues) (p : pointer) :
    (q.store i p).heap = q.heap := rfl

@[simp] theorem store_dirty_heap (q : lf_queue T) (i : Fin num_queues) (b : Bool) :
    (q.store_dirty i b).heap = q.heap := rfl

@[simp] theorem write_data (q : lf_queue T) (p : Fin num_queues) (l : List T) :
    (q.write p l).data_ = q.data_ := rfl

@[simp] theorem write_heap (q : lf_queue T) (p : Fin num_queues) (l : List T) :
    (q.write p l).heap = Function.update q.heap p l := rfl

@[simp] theorem store_data (q : lf_queue T) (i : Fin num_queues) (p : pointer) :
    (q.store i p).data_ =
      Function.update q.data_ i { atomic_ptr := p, dirty_ := (q.data_ i).dirty_ } := rfl

@[simp] theorem store_dirty_data (q : lf_queue T) (i : Fin num_queues) (b : Bool) :
    (q.store_dirty i b).data_ =
      Function.update q.data_ i { atomic_ptr := (q.data_ i).atomic_ptr, dirty_ := b } := rfl

@[simp] theorem destructor_heap (g : queue_holder) (q : lf_queue T) :
    (g.destructor q).heap = q.heap := by
  unfold queue_holder.destructor
  cases g.ptr_ <;> rfl

/-- Releasing shard `j` through the destructor after the acquisition emptied
its handle: the handle is back and the flag says whether the queue object
holds data. -/
theorem destructor_after_acquire (q : lf_queue T) (j p : Fin num_queues)
    (heap1 : Fin num_queues → List T) :
    queue_holder.destructor { index_ := j, ptr_ := some p }
        { data_ := (q.store j none).data_, heap := heap1 } =
      { data_ := Function.update q.data_ j
          { atomic_ptr := some p, dirty_ := !(heap1 p).isEmpty }
        heap := heap1 } := by
  apply lf_queue.ext
  · simp [queue_holder.destructor]
  · simp [queue_holder.destructor]

theorem stored_write (q : lf_queue T) (p : Fin num_queues) (l : List T) :
    stored (q.write p l) + (q.heap p).length = stored q + l.length := by
  unfold stored
  rw [write_heap, ← Finset.add_sum_erase Finset.univ _ (Finset.mem_univ p),
    ← Finset.add_sum_erase Finset.univ (fun p => (q.heap p).length) (Finset.mem_univ p)]
  have h : ∑ x ∈ Finset.univ.erase p, (Function.update q.heap p l x).length =
      ∑ x ∈ Finset.univ.erase p, (q.heap x).length :=
    Finset.sum_congr rfl (fun x hx => by
      rw [Function.update_noteq (Finset.ne_of_mem_erase hx)])
  rw [h, Function.update_same]
  omega

theorem stored_update (q q1 : lf_queue T) (p : Fin num_queues) (l : List T)
    (h : q1.heap = Function.update q.heap p l) :
    stored q1 + (q.heap p).length = stored q + l.length := by
  have := stored_write q p l
  unfold stored at *
  rw [h]
  simpa using this

/-! ## Enqueue -/

theorem acquire_queue_first (fuel : Nat) (q : lf_queue T) (s m : Nat) (p : Fin num_queues)
    (hf : m < fuel)
    (hfirst : ∀ k, k < m → (q.data_ (index_at s k)).atomic_ptr = none)
    (hp : (q.data_ (index_at s m)).atomic_ptr = some p) :
    acquire_queue fuel q s =
      some ({ index_ := index_at s m, ptr_ := some p }, q.store (index_at s m) none) :=
  acquire_queue_from_spec q s fuel 0 m p (Nat.zero_le _) (by omega)
    (fun k _ hk => hfirst k hk) hp

theorem enqueue_bulk_eq (fuel : Nat) (q : lf_queue T) (s m : Nat) (p : Fin num_queues)
    (iter : List T) (count : Nat) (hf : m < fuel)
    (hfirst : ∀ k, k < m → (q.data_ (index_at s k)).atomic_ptr = none)
    (hp : (q.data_ (index_at s m)).atomic_ptr = some p) :
    enqueue_bulk fuel q s iter count = some (true,
      { data_ := Function.update q.data_ (index_at s m)
          { atomic_ptr := some p, dirty_ := !(q.heap p ++ iter.take count).isEmpty }
        heap := Function.update q.heap p (q.heap p ++ iter.take count) }) := by
  unfold enqueue_bulk
  rw [acquire_queue_first fuel q s m p hf hfirst hp]
  simp only [Option.some.injEq, Prod.mk.injEq, true_and]
  have h := destructor_after_acquire q (index_at s m) p
    (Function.update q.heap p (q.heap p ++ iter.take count))
  rw [Function.update_same] at h
  exact h

theorem enqueue_eq (fuel : Nat) (q : lf_queue T) (s m : Nat) (p : Fin num_queues)
    (arg : T) (hf : m < fuel)
    (hfirst : ∀ k, k < m → (q.data_ (index_at s k)).atomic_ptr = none)
    (hp : (q.data_ (index_at s m)).atomic_ptr = some p) :
    enqueue fuel q s arg = some (true,
      { data_ := Function.update q.data_ (index_at s m)
          { atomic_ptr := some p, dirty_ := true }
        heap := Function.update q.heap p (q.heap p ++ [arg]) }) := by
  unfold enqueue
  rw [acquire_queue_first fuel q s m p hf hfirst hp]
  simp only [Option.some.injEq, Prod.mk.injEq, true_and]
  have h := destructor_after_acquire q (index_at s m) p
    (Function.update q.heap p (q.heap p ++ [arg]))
  have he : (q.heap p ++ [arg]).isEmpty = false := by cases q.heap p <;> rfl
  rw [Function.update_same, he] at h
  exact h

/-- C3 (enqueue postcondition).  In a table with at least one handle present,
and with fuel for 32 probes, `enqueue` returns true.  With `m` the first
position of the scan `h, h+1, ...` (masked) whose handle is present and `p`
the queue object that handle refers to: the final contents are those before
with `x` appended at the back of `p` and nothing else changed; the final
table is the one before with slot `index_at h m` holding `p` again and its
flag true; and the total stored count has grown by exactly one. -/
theorem enqueue_post (fuel : Nat) (q : lf_queue T) (h : Nat) (x : T)
    (hfuel : num_queues ≤ fuel)
    (hfree : ∃ j, (q.data_ j).atomic_ptr ≠ none) :
    ∃ m p q1, m < num_queues ∧
      (∀ k, k < m → (q.data_ (index_at h k)).atomic_ptr = none) ∧
      (q.data_ (index_at h m)).atomic_ptr = some p ∧
      enqueue fuel q h x = some (true, q1) ∧
      q1.heap = Function.update q.heap p (q.heap p ++ [x]) ∧
      q1.data_ = Function.update q.data_ (index_at h m)
        { atomic_ptr := some p, dirty_ := true } ∧
      stored q1 = stored q + 1 := by
  obtain ⟨m, p, hm, hfirst, hp⟩ := exists_first_present q h hfree
  refine ⟨m, p, _, hm, hfirst, hp, enqueue_eq fuel q h m p x (by omega) hfirst hp,
    rfl, rfl, ?_⟩
  have := stored_update q
    { data_ := Function.update q.data_ (index_at h m) { atomic_ptr := some p, dirty_ := true }
      heap := Function.update q.heap p (q.heap p ++ [x]) } p (q.heap p ++ [x]) rfl
  simp only [List.length_append, List.length_singleton] at this
  omega

/-- Witness of C3 at the freshly constructed queue, hint 5, item 7. -/
theorem enqueue_post_witness :
    ∃ m p q1, m < num_queues ∧
      (∀ k, k < m → ((lf_queue.new : lf_queue Nat).data_ (index_at 5 k)).atomic_ptr = none) ∧
      ((lf_queue.new : lf_queue Nat).data_ (index_at 5 m)).atomic_ptr = some p ∧
      enqueue 32 (lf_queue.new : lf_queue Nat) 5 7 = some (true, q1) ∧
      q1.heap = Function.update (lf_queue.new : lf_queue Nat).heap p
        ((lf_queue.new : lf_queue Nat).heap p ++ [7]) ∧
      q1.data_ = Function.update (lf_queue.new : lf_queue Nat).data_ (index_at 5 m)
        { atomic_ptr := some p, dirty_ := true } ∧
      stored q1 = stored (lf_queue.new : lf_queue Nat) + 1 :=
  enqueue_post 32 lf_queue.new 5 7 (le_refl _) ⟨0, by decide⟩

/-- C8 (enqueue_bulk postcondition).  In a table with at least one handle
present, with fuel for 32 probes and `count` at most the length of the
sequence, `enqueue_bulk` returns true.  With `m` the first position of the
scan from `h` whose handle is present and `p` the queue object it refers to:
the first `count` elements of `xs` are appended, in order and contiguously,
at the back of `p` and no other queue object changes; slot `index_at h m`
holds `p` again with its flag equal to "the queue object is non-empty" and
no other slot changes; `count` elements were added in total. -/
theorem enqueue_bulk_post (fuel : Nat) (q : lf_queue T) (h : Nat) (xs : List T) (count : Nat)
    (hfuel : num_queues ≤ fuel) (hcount : count ≤ xs.length)
    (hfree : ∃ j, (q.data_ j).atomic_ptr ≠ none) :
    ∃ m p q1, m < num_queues ∧
      (∀ k, k < m → (q.data_ (index_at h k)).atomic_ptr = none) ∧
      (q.data_ (index_at h m)).atomic_ptr = some p ∧
      enqueue_bulk fuel q h xs count = some (true, q1) ∧
      q1.heap = Function.update q.heap p (q.heap p ++ xs.take count) ∧
      (xs.take count).length = count ∧
      q1.data_ = Function.update q.data_ (index_at h m)
        { atomic_ptr := some p, dirty_ := !(q1.heap p).isEmpty } ∧
      stored q1 = stored q + count := by
  obtain ⟨m, p, hm, hfirst, hp⟩ := exists_first_present q h hfree
  have hlen : (xs.take count).length = count := by
    rw [List.length_take]; omega
  refine ⟨m, p, _, hm, hfirst, hp,
    enqueue_bulk_eq fuel q h m p xs count (by omega) hfirst hp, rfl, hlen, ?_, ?_⟩
  · simp only [Function.update_same]
  · have := stored_update q
      { data_ := Function.update q.data_ (index_at h m)
          { atomic_ptr := some p, dirty_ := !(q.heap p ++ xs.take count).isEmpty }
        heap := Function.update q.heap p (q.heap p ++ xs.take count) } p
      (q.heap p ++ xs.take count) rfl
    simp only [List.length_append, hlen] at this
    omega

/-- Witness of C8 at the freshly constructed queue, hint 5, the first two
of three items. -/
theorem enqueue_bulk_post_witness :
    ∃ m p q1, m < num_queues ∧
      (∀ k, k < m → ((lf_queue.new : lf_queue Nat).data_ (index_at 5 k)).atomic_ptr = none) ∧
      ((lf_queue.new : lf_queue Nat).data_ (index_at 5 m)).atomic_ptr = some p ∧
      enqueue_bulk 32 (lf_queue.new : lf_queue Nat) 5 [7, 8, 9] 2 = some (true, q1) ∧
      q1.heap = Function.update (lf_queue.new : lf_queue Nat).heap p
        ((lf_queue.new : lf_queue Nat).heap p ++ [7, 8, 9].take 2) ∧
      ([7, 8, 9].take 2).length = 2 ∧
      q1.data_ = Function.update (lf_queue.new : lf_queue Nat).data_ (index_at 5 m)
        { atomic_ptr := some p, dirty_ := !(q1.heap p).isEmpty } ∧
      stored q1 = stored (lf_queue.new : lf_queue Nat) + 2 :=
  enqueue_bulk_post 32 lf_queue.new 5 [7, 8, 9] 2 (le_refl _) (by decide) ⟨0, by decide⟩

/-! ## Dequeue -/

theorem try_dequeue_none (q : lf_queue T) (s : Nat) (item : T)
    (h : ∀ j, ¬ dirty_present q j) :
    try_dequeue q s item = (false, item, q) := by
  unfold try_dequeue
  rw [acquire_queue_dequeue_none q s h]
  rfl

theorem try_dequeue_pop (q : lf_queue T) (s m : Nat) (p : Fin num_queues) (item : T)
    (front : T) (rest : List T) (hm : m < num_queues)
    (hfirst : ∀ k, k < m → ¬ dirty_present q (index_at s k))
    (hd : (q.data_ (index_at s m)).dirty_ = true)
    (hp : (q.data_ (index_at s m)).atomic_ptr = some p)
    (hheap : q.heap p = front :: rest) :
    try_dequeue q s item = (true, front,
      { data_ := Function.update q.data_ (index_at s m)
          { atomic_ptr := some p, dirty_ := !rest.isEmpty }
        heap := Function.update q.heap p rest }) := by
  unfold try_dequeue
  rw [acquire_queue_dequeue_first q s m p hm hfirst hd hp]
  simp only [store_heap, hheap]
  have h := destructor_after_acquire q (index_at s m) p (Function.update q.heap p rest)
  rw [Function.update_same] at h
  rw [← h]
  rfl

theorem try_dequeue_stale (q : lf_queue T) (s m : Nat) (p : Fin num_queues) (item : T)
    (hm : m < num_queues)
    (hfirst : ∀ k, k < m → ¬ dirty_present q (index_at s k))
    (hd : (q.data_ (index_at s m)).dirty_ = true)
    (hp : (q.data_ (index_at s m)).atomic_ptr = some p)
    (hheap : q.heap p = []) :
    try_dequeue q s item = (false, item,
      { data_ := Function.update q.data_ (index_at s m)
          { atomic_ptr := some p, dirty_ := false }
        heap := q.heap }) := by
  unfold try_dequeue
  rw [acquire_queue_dequeue_first q s m p hm hfirst hd hp]
  simp only [store_heap, hheap]
  have h := destructor_after_acquire q (index_at s m) p q.heap
  rw [hheap] at h
  exact congrArg (fun r => (false, item, r)) h

/-- C4 (try_dequeue postcondition), for every table, hint `h` and initial
value `item` of the output variable.
(1) If no shard has its flag true and its handle present, the call returns
false, `item` keeps its value and the table and contents are unchanged.
(2) Otherwise let `m < 32` be the first scan position from `h` whose shard
`index_at h m` has flag true and handle present, `p` the queue object of
that handle.  If `p` holds `front :: rest`, the call returns true, the
output is `front`, `p` holds `rest`, no other queue object changes, slot
`index_at h m` holds `p` again with flag "`rest` is non-empty", and no other
slot changes.  If `p` is empty, the call returns false, `item` and all
contents are unchanged, and the only change of the table is that the flag of
slot `index_at h m` is false. -/
theorem try_dequeue_post (q : lf_queue T) (h : Nat) (item : T) :
    ((∀ j, ¬ dirty_present q j) → try_dequeue q h item = (false, item, q)) ∧
    (∀ m p, m < num_queues →
      (∀ k, k < m → ¬ dirty_present q (index_at h k)) →
      (q.data_ (index_at h m)).dirty_ = true →
      (q.data_ (index_at h m)).atomic_ptr = some p →
      (∀ front rest, q.heap p = front :: rest →
        try_dequeue q h item = (true, front,
          { data_ := Function.update q.data_ (index_at h m)
              { atomic_ptr := some p, dirty_ := !rest.isEmpty }
            heap := Function.update q.heap p rest })) ∧
      (q.heap p = [] →
        try_dequeue q h item = (false, item,
          { data_ := Function.update q.data_ (index_at h m)
              { atomic_ptr := some p, dirty_ := false }
            heap := q.heap }))) :=
  ⟨try_dequeue_none q h item, fun m p hm hfirst hd hp =>
    ⟨fun front rest hheap => try_dequeue_pop q h m p item front rest hm hfirst hd hp hheap,
     fun hheap => try_dequeue_stale q h m p item hm hfirst hd hp hheap⟩⟩

/-- Witness of C4: the fresh queue (no flagged shard), a queue holding one
item in shard 5 scanned from hint 3, and a shard 5 flagged although empty. -/
theorem try_dequeue_post_witness :
    try_dequeue (lf_queue.new : lf_queue Nat) 3 0 = (false, 0, lf_queue.new) ∧
    try_dequeue (((lf_queue.new : lf_queue Nat).write 5 [7]).store_dirty 5 true) 3 0 =
      (true, 7,
        { data_ := Function.update
            (((lf_queue.new : lf_queue Nat).write 5 [7]).store_dirty 5 true).data_
            (index_at 3 2) { atomic_ptr := some 5, dirty_ := !([] : List Nat).isEmpty }
          heap := Function.update
            (((lf_queue.new : lf_queue Nat).write 5 [7]).store_dirty 5 true).heap 5 [] }) ∧
    try_dequeue ((lf_queue.new : lf_queue Nat).store_dirty 5 true) 3 0 =
      (false, 0,
        { data_ := Function.update ((lf_queue.new : lf_queue Nat).store_dirty 5 true).data_
            (index_at 3 2) { atomic_ptr := some 5, dirty_ := false }
          heap := ((lf_queue.new : lf_queue Nat).store_dirty 5 true).heap }) :=
  ⟨(try_dequeue_post lf_queue.new 3 0).1 (by decide),
   ((try_dequeue_post _ 3 0).2 2 5 (by decide) (by decide) (by decide) (by decide)).1
      7 [] (by decide),
   ((try_dequeue_post _ 3 0).2 2 5 (by decide) (by decide) (by decide) (by decide)).2
      (by decide)⟩

/-! ## Bulk dequeue -/

theorem destructor_handles (orig : Fin num_queues → pointer) (q : lf_queue T)
    (g : queue_holder) (hinv : guard_inv orig q g) (i : Fin num_queues) :
    ((g.destructor q).data_ i).atomic_ptr = orig i := by
  unfold guard_inv at hinv
  unfold queue_holder.destructor
  cases hptr : g.ptr_ with
  | none =>
    rw [hptr] at hinv
    exact hinv i
  | some p =>
    rw [hptr] at hinv
    simp only [store_data, store_dirty_data, Function.update_idem, Function.update_same]
    by_cases hi : i = g.index_
    · subst hi
      simp [hinv.1]
    · rw [Function.update_noteq hi, hinv.2 i, if_neg hi]

/-- One pass of `queue_guard = acquire_queue_dequeue();`: the relation
between table, guard and original handles is kept and no contents change. -/
theorem reacquire_inv (orig : Fin num_queues → pointer) (q : lf_queue T)
    (g : queue_holder) (p : Fin num_queues) (s : Nat)
    (hptr : g.ptr_ = some p) (hinv : guard_inv orig q g) :
    guard_inv orig
      ((g.move_assign (acquire_queue_dequeue q s).1 (acquire_queue_dequeue q s).2).2.1.destructor
        (g.move_assign (acquire_queue_dequeue q s).1 (acquire_queue_dequeue q s).2).2.2)
      (g.move_assign (acquire_queue_dequeue q s).1 (acquire_queue_dequeue q s).2).1 ∧
    ((g.move_assign (acquire_queue_dequeue q s).1 (acquire_queue_dequeue q s).2).2.1.destructor
        (g.move_assign (acquire_queue_dequeue q s).1 (acquire_queue_dequeue q s).2).2.2).heap
      = q.heap := by
  unfold guard_inv at hinv
  rw [hptr] at hinv
  obtain ⟨ho, hq⟩ := hinv
  rcases acquire_queue_dequeue_spec q s with ⟨h1, _⟩ | ⟨m, p1, _, _, _, h4, h5⟩
  · rw [h1]
    refine ⟨?_, rfl⟩
    unfold guard_inv
    simp only [queue_holder.move_assign, queue_holder.destructor, store_data, hptr]
    intro i
    by_cases hi : i = g.index_
    · subst hi
      simp [ho]
    · rw [Function.update_noteq hi, hq i, if_neg hi]
  · rw [h5]
    refine ⟨?_, rfl⟩
    have hne : index_at s m ≠ g.index_ := by
      intro he
      have := hq (index_at s m)
      rw [h4, if_pos he] at this
      exact absurd this (by simp)
    unfold guard_inv
    simp only [queue_holder.move_assign, queue_holder.destructor, store_data, hptr]
    refine ⟨?_, fun i => ?_⟩
    · have := hq (index_at s m)
      rw [if_neg hne, h4] at this
      exact this.symm
    · by_cases hi : i = g.index_
      · subst hi
        simp [ho, Ne.symm hne]
      · rw [Function.update_noteq hi]
        by_cases hj : i = index_at s m
        · subst hj
          simp
        · rw [Function.update_noteq hj, hq i, if_neg hi, if_neg hj]

/-- The loop of `try_dequeue_bulk` returns within the fuel the operation
gives it; what it returns is the count so far plus the number of values it
appended to the output, never more than `items`; the contents of the queue
objects are untouched and every handle is back in its slot. -/
theorem try_dequeue_bulk_loop_spec (hints : Nat → Nat) (items : Nat)
    (orig : Fin num_queues → pointer) (fuel : Nat) (q : lf_queue T) (g : queue_holder)
    (count iters : Nat) (output : List T)
    (hfuel : num_queues + 1 ≤ fuel + iters) (hiters : iters ≤ num_queues)
    (hcount : count ≤ items) (hinv : guard_inv orig q g) :
    ∃ extra q1, try_dequeue_bulk_loop hints items fuel q g count iters output =
        some (count + extra.length, output ++ extra, q1) ∧
      count + extra.length ≤ items ∧ q1.heap = q.heap ∧
      ∀ i, (q1.data_ i).atomic_ptr = orig i := by
  induction fuel generalizing q g count iters output with
  | zero =>
    have h1 : 32 + 1 ≤ 0 + iters := hfuel
    have h2 : iters ≤ 32 := hiters
    omega
  | succ fuel ih =>
    unfold try_dequeue_bulk_loop
    cases hptr : g.ptr_ with
    | none =>
      exact ⟨[], g.destructor q, by simp, by simpa using hcount, destructor_heap g q,
        destructor_handles orig q g hinv⟩
    | some p =>
      simp only []
      by_cases hlt : count < items
      · simp only [hlt, if_true]
        have hlen : (List.take (min (q.heap p).length (items - count)) (q.heap p)).length
            = min (q.heap p).length (items - count) := by
          rw [List.length_take]
          omega
        have hadd : count + (List.take (min (q.heap p).length (items - count)) (q.heap p)).length
            = count + min (q.heap p).length (items - count) := by
          rw [hlen]
        by_cases hdone : count + min (q.heap p).length (items - count) = items
        · refine ⟨(q.heap p).take (min (q.heap p).length (items - count)), g.destructor q,
            ?_, by omega, destructor_heap g q, destructor_handles orig q g hinv⟩
          simp only [hdone, if_true]
          rw [hadd, hdone]
        · simp only [hdone, if_false]
          by_cases hit : iters = num_queues
          · refine ⟨(q.heap p).take (min (q.heap p).length (items - count)), g.destructor q,
              ?_, by omega, destructor_heap g q, destructor_handles orig q g hinv⟩
            simp only [hit, if_true]
            rw [hadd]
          · simp only [hit, if_false]
            have hstep := reacquire_inv orig q g p (hints (iters + 1)) hptr hinv
            rcases hacq : acquire_queue_dequeue q (hints (iters + 1)) with ⟨acq, q1⟩
            rw [hacq] at hstep
            simp only [] at hstep ⊢
            have hit1 : iters + 1 ≤ num_queues := by
              have h2 : iters ≤ 32 := hiters
              have h3 : iters ≠ 32 := hit
              show iters + 1 ≤ 32
              omega
            obtain ⟨extra, q2, h1, h2, h3, h4⟩ :=
              ih _ _ (count + min (q.heap p).length (items - count)) (iters + 1)
                (output ++ (q.heap p).take (min (q.heap p).length (items - count)))
                (by omega) hit1 (by omega) hstep.1
            refine ⟨(q.heap p).take (min (q.heap p).length (items - count)) ++ extra, q2,
              ?_, ?_, h3.trans hstep.2, h4⟩
            · rw [h1, List.length_append, hlen, List.append_assoc, Nat.add_assoc]
            · rw [List.length_append, hlen]
              omega
      · refine ⟨[], g.destructor q, ?_, by simpa using hcount, destructor_heap g q,
          destructor_handles orig q g hinv⟩
        simp [hlt]

/-- The handles of a table are related to themselves by what
`acquire_queue_dequeue` returns. -/
theorem acquire_queue_dequeue_inv (q : lf_queue T) (s : Nat) :
    guard_inv (fun i => (q.data_ i).atomic_ptr) (acquire_queue_dequeue q s).2
      (acquire_queue_dequeue q s).1 ∧ (acquire_queue_dequeue q s).2.heap = q.heap := by
  rcases acquire_queue_dequeue_spec q s with ⟨h1, _⟩ | ⟨m, p1, _, _, _, h4, h5⟩
  · rw [h1]
    exact ⟨fun i => rfl, rfl⟩
  · rw [h5]
    refine ⟨⟨h4, fun i => ?_⟩, rfl⟩
    by_cases hi : i = index_at s m
    · subst hi
      simp
    · simp [Function.update_noteq hi, hi]

/-- The operation `try_dequeue_bulk` always returns (its fuel is never
exhausted); the returned count is the number of values written and at most
`items`; the contents of every queue object and every handle are as before
the call. -/
theorem try_dequeue_bulk_total (q : lf_queue T) (hints : Nat → Nat) (items : Nat) :
    ∃ out q1, try_dequeue_bulk q hints items = some (out.length, out, q1) ∧
      out.length ≤ items ∧ q1.heap = q.heap ∧
      ∀ i, (q1.data_ i).atomic_ptr = (q.data_ i).atomic_ptr := by
  unfold try_dequeue_bulk
  have hstep := acquire_queue_dequeue_inv q (hints 0)
  rcases hacq : acquire_queue_dequeue q (hints 0) with ⟨g, q0⟩
  rw [hacq] at hstep
  obtain ⟨extra, q1, h1, h2, h3, h4⟩ :=
    try_dequeue_bulk_loop_spec hints items (fun i => (q.data_ i).atomic_ptr)
      (num_queues + 1) q0 g 0 0 [] (le_refl _) (Nat.zero_le _) (Nat.zero_le _) hstep.1
  refine ⟨extra, q1, ?_, by simpa using h2, h3.trans hstep.2, h4⟩
  simpa using h1

/-- C9 (bulk dequeue count bound).  For every table, hints and requested
count, `try_dequeue_bulk` returns, the returned value is the number of
values written through the output iterator, and it is at most `want`. -/
theorem try_dequeue_bulk_count (q : lf_queue T) (hints : Nat → Nat) (want : Nat) :
    ∃ k out q1, try_dequeue_bulk q hints want = some (k, out, q1) ∧
      k = out.length ∧ k ≤ want := by
  obtain ⟨out, q1, h1, h2, _, _⟩ := try_dequeue_bulk_total q hints want
  exact ⟨out.length, out, q1, h1, rfl, h2⟩

/-! ## Single-shard states -/

theorem single_shard_nil (j : Fin num_queues) :
    (single_shard j [] : lf_queue T) = lf_queue.new := by
  apply lf_queue.ext
  · funext i
    simp [single_shard, lf_queue.new]
  · funext i
    simp [single_shard, lf_queue.new]

theorem acquire_queue_dequeue_only (q : lf_queue T) (s : Nat) (j p : Fin num_queues)
    (hd : (q.data_ j).dirty_ = true) (hp : (q.data_ j).atomic_ptr = some p)
    (honly : ∀ i, i ≠ j → (q.data_ i).dirty_ = false) :
    acquire_queue_dequeue q s = ({ index_ := j, ptr_ := some p }, q.store j none) := by
  rcases acquire_queue_dequeue_spec q s with ⟨_, h2⟩ | ⟨m, p1, _, _, h3, h4, h5⟩
  · exact absurd ⟨hd, by simp [hp]⟩ (h2 j)
  · have hj : index_at s m = j := by
      by_contra hne
      rw [honly _ hne] at h3
      exact absurd h3 (by simp)
    rw [hj] at h4 h5
    have hpp : p1 = p := Option.some.inj (h4.symm.trans hp)
    rw [h5, hpp]

theorem enqueue_bulk_single_shard (fuel h : Nat) (l xs : List T) (count : Nat)
    (hfuel : 0 < fuel) :
    enqueue_bulk fuel (single_shard (index_at h 0) l) h xs count =
      some (true, single_shard (index_at h 0) (l ++ xs.take count)) := by
  rw [enqueue_bulk_eq fuel (single_shard (index_at h 0) l) h 0 (index_at h 0) xs count hfuel
    (fun k hk => absurd hk (Nat.not_lt_zero k)) rfl]
  simp only [Option.some.injEq, Prod.mk.injEq, true_and]
  apply lf_queue.ext
  · funext i
    by_cases hi : i = index_at h 0
    · subst hi
      simp [single_shard]
    · simp [single_shard, Function.update_noteq hi, hi]
  · funext i
    by_cases hi : i = index_at h 0
    · subst hi
      simp [single_shard]
    · simp [single_shard, Function.update_noteq hi, hi]

theorem enqueue_single_shard (fuel h : Nat) (l : List T) (x : T) (hfuel : 0 < fuel) :
    enqueue fuel (single_shard (index_at h 0) l) h x =
      some (true, single_shard (index_at h 0) (l ++ [x])) := by
  rw [enqueue_eq fuel (single_shard (index_at h 0) l) h 0 (index_at h 0) x hfuel
    (fun k hk => absurd hk (Nat.not_lt_zero k)) rfl]
  simp only [Option.some.injEq, Prod.mk.injEq, true_and]
  apply lf_queue.ext
  · funext i
    by_cases hi : i = index_at h 0
    · subst hi
      simp [single_shard]
    · simp [single_shard, Function.update_noteq hi, hi]
  · funext i
    by_cases hi : i = index_at h 0
    · subst hi
      simp [single_shard]
    · simp [single_shard, Function.update_noteq hi, hi]

theorem single_shard_first (j : Fin num_queues) (a : T) (l : List T) (s : Nat) :
    ∃ m, m < num_queues ∧
      (∀ k, k < m → ¬ dirty_present (single_shard j (a :: l)) (index_at s k)) ∧
      index_at s m = j := by
  obtain ⟨m, hm, hj⟩ := index_at_surj s j
  refine ⟨m, hm, fun k hk hdp => ?_, hj⟩
  have hkj : index_at s k = j := by
    by_contra hne
    have := hdp.1
    simp [single_shard, hne] at this
  exact absurd (index_at_inj s k m (by omega) hm (hkj.trans hj.symm)) (by omega)

theorem try_dequeue_single_shard_cons (j : Fin num_queues) (a : T) (l : List T)
    (s : Nat) (item : T) :
    try_dequeue (single_shard j (a :: l)) s item = (true, a, single_shard j l) := by
  obtain ⟨m, hm, hfirst, hj⟩ := single_shard_first j a l s
  rw [try_dequeue_pop (single_shard j (a :: l)) s m j item a l hm hfirst
    (by simp [single_shard, hj]) (by simp [single_shard, hj]) (by simp [single_shard]), hj]
  simp only [Prod.mk.injEq, true_and]
  apply lf_queue.ext
  · funext i
    by_cases hi : i = j
    · subst hi
      simp [single_shard]
    · simp [single_shard, Function.update_noteq hi, hi]
  · funext i
    by_cases hi : i = j
    · subst hi
      simp [single_shard]
    · simp [single_shard, Function.update_noteq hi, hi]

theorem try_dequeue_single_shard_nil (j : Fin num_queues) (s : Nat) (item : T) :
    try_dequeue (single_shard j ([] : List T)) s item =
      (false, item, single_shard j []) :=
  try_dequeue_none _ s item (fun i hdp => by
    have := hdp.1
    simp [single_shard] at this)

theorem enqueue_all_single_shard (fuel h : Nat) (hfuel : 0 < fuel) (xs l : List T) :
    enqueue_all fuel h xs (single_shard (index_at h 0) l) =
      some (List.replicate xs.length true, single_shard (index_at h 0) (l ++ xs)) := by
  induction xs generalizing l with
  | nil => simp [enqueue_all]
  | cons x xs ih =>
    unfold enqueue_all
    rw [enqueue_single_shard fuel h l x hfuel]
    simp only [ih (l ++ [x])]
    simp [List.replicate_succ]

theorem try_dequeue_n_single_shard (hints : Nat → Nat) (j : Fin num_queues)
    (xs : List T) (k : Nat) (item : T) :
    try_dequeue_n hints xs.length k (single_shard j xs) item =
      (xs.map (fun x => (true, x)), single_shard j []) := by
  induction xs generalizing k item with
  | nil => rfl
  | cons x xs ih =>
    simp only [List.length_cons, try_dequeue_n, try_dequeue_single_shard_cons, ih,
      List.map_cons]

/-- C2 (single-threaded FIFO round trip).  From the freshly constructed
queue, `enqueue` of the elements of `xs` in order with one and the same hint
`h` returns true every time; then `|xs|` calls of `try_dequeue`, the `k`-th
with an arbitrary hint `hints k`, each return true and deliver the elements
of `xs` in their original order; and any further `try_dequeue` returns
false. -/
theorem fifo_round_trip (xs : List T) (fuel h : Nat) (hints : Nat → Nat) (item : T)
    (hfuel : 0 < fuel) :
    ∃ q1, enqueue_all fuel h xs lf_queue.new = some (List.replicate xs.length true, q1) ∧
      ∃ q2, try_dequeue_n hints xs.length 0 q1 item = (xs.map (fun x => (true, x)), q2) ∧
        ∀ s item1, (try_dequeue q2 s item1).1 = false := by
  refine ⟨single_shard (index_at h 0) xs, ?_, single_shard (index_at h 0) [],
    try_dequeue_n_single_shard hints _ xs 0 item, fun s item1 => ?_⟩
  · have := enqueue_all_single_shard fuel h hfuel xs []
    rwa [single_shard_nil, List.nil_append] at this
  · rw [try_dequeue_single_shard_nil]

/-- Witness of C2: the items 1, 2, 3 enqueued with hint 6 and dequeued with
hints 0, 1, 2. -/
theorem fifo_round_trip_witness :
    ∃ q1, enqueue_all 1 6 [1, 2, 3] lf_queue.new =
        some (List.replicate [1, 2, 3].length true, q1) ∧
      ∃ q2, try_dequeue_n (fun k => k) [1, 2, 3].length 0 q1 0 =
          ([1, 2, 3].map (fun x => (true, x)), q2) ∧
        ∀ s item1, (try_dequeue q2 s item1).1 = false :=
  fifo_round_trip [1, 2, 3] 1 6 (fun k => k) 0 (by decide)

theorem try_dequeue_bulk_single_shard (hints : Nat → Nat) (j : Fin num_queues)
    (xs : List T) :
    try_dequeue_bulk (single_shard j xs) hints xs.length =
      some (xs.length, xs, single_shard j xs) := by
  cases xs with
  | nil =>
    unfold try_dequeue_bulk
    rw [acquire_queue_dequeue_none _ _ (fun i hdp => by
      have := hdp.1
      simp [single_shard] at this)]
    rfl
  | cons a l =>
    unfold try_dequeue_bulk
    rw [acquire_queue_dequeue_only (single_shard j (a :: l)) (hints 0) j j
      (by simp [single_shard]) (by simp [single_shard])
      (fun i hi => by simp [single_shard, hi])]
    unfold try_dequeue_bulk_loop
    have hheap : ((single_shard j (a :: l)).store j none).heap j = a :: l := by
      simp [single_shard]
    simp only [hheap, Nat.sub_zero, Nat.min_self, Nat.zero_add, List.take_length,
      List.nil_append, if_true, List.length_cons, Nat.succ_pos, Nat.lt_add_left_iff_pos,
      Nat.zero_lt_succ]
    simp only [Option.some.injEq, Prod.mk.injEq, true_and]
    have h := destructor_after_acquire (single_shard j (a :: l)) j j
      (single_shard j (a :: l)).heap
    refine ⟨List.take_length (a :: l), Eq.trans h ?_⟩
    apply lf_queue.ext
    · funext i
      by_cases hi : i = j
      · subst hi
        simp [single_shard]
      · simp [single_shard, Function.update_noteq hi, hi]
    · rfl

/-- C5 (bulk round trip).  On the freshly constructed queue, for every list
`xs`, `enqueue_bulk(xs, |xs|)` returns true and the `try_dequeue_bulk` of
`|xs|` items that follows (with arbitrary hints) returns exactly `|xs|` and
writes exactly the elements of `xs` in their original order. -/
theorem bulk_round_trip (xs : List T) (fuel h : Nat) (hints : Nat → Nat)
    (hfuel : 0 < fuel) :
    ∃ q1, enqueue_bulk fuel (lf_queue.new : lf_queue T) h xs xs.length = some (true, q1) ∧
      ∃ q2, try_dequeue_bulk q1 hints xs.length = some (xs.length, xs, q2) := by
  refine ⟨single_shard (index_at h 0) xs, ?_, single_shard (index_at h 0) xs,
    try_dequeue_bulk_single_shard hints _ xs⟩
  have := enqueue_bulk_single_shard fuel h [] xs xs.length hfuel
  rwa [single_shard_nil, List.nil_append, List.take_length] at this

/-- Witness of C5: the items 1, 2, 3 enqueued with hint 6 and dequeued in
bulk with hint 9. -/
theorem bulk_round_trip_witness :
    ∃ q1, enqueue_bulk 1 (lf_queue.new : lf_queue Nat) 6 [1, 2, 3] [1, 2, 3].length =
        some (true, q1) ∧
      ∃ q2, try_dequeue_bulk q1 (fun _ => 9) [1, 2, 3].length =
        some ([1, 2, 3].length, [1, 2, 3], q2) :=
  bulk_round_trip [1, 2, 3] 1 6 (fun _ => 9) (by decide)

/-- C7 (empty-queue boundary).  On the freshly constructed queue, for every
hint, `try_dequeue` returns false, leaves the output variable as it was and
leaves the table and contents unchanged; `try_dequeue_bulk` returns 0 and
writes nothing (and changes nothing) for every requested count. -/
theorem empty_queue_boundary (h : Nat) (item : T) (hints : Nat → Nat) (want : Nat) :
    try_dequeue (lf_queue.new : lf_queue T) h item = (false, item, lf_queue.new) ∧
    try_dequeue_bulk (lf_queue.new : lf_queue T) hints want = some (0, [], lf_queue.new) := by
  have hnone : ∀ j, ¬ dirty_present (lf_queue.new : lf_queue T) j := fun j hdp => by
    have := hdp.1
    simp [lf_queue.new] at this
  refine ⟨try_dequeue_none _ h item hnone, ?_⟩
  unfold try_dequeue_bulk
  rw [acquire_queue_dequeue_none _ _ hnone]
  rfl

/-! ## Handles after a call -/

theorem update_handle_same (q : lf_queue T) (j p : Fin num_queues) (d : Bool)
    (hp : (q.data_ j).atomic_ptr = some p) (i : Fin num_queues) :
    (Function.update q.data_ j { atomic_ptr := some p, dirty_ := d } i).atomic_ptr =
      (q.data_ i).atomic_ptr := by
  by_cases hi : i = j
  · subst hi
    simp [hp]
  · rw [Function.update_noteq hi]

theorem try_dequeue_handles (q : lf_queue T) (s : Nat) (item : T) (i : Fin num_queues) :
    ((try_dequeue q s item).2.2.data_ i).atomic_ptr = (q.data_ i).atomic_ptr := by
  rcases acquire_queue_dequeue_spec q s with ⟨_, h2⟩ | ⟨m, p, hm, hfirst, hd, hp, _⟩
  · rw [try_dequeue_none q s item h2]
  · cases hheap : q.heap p with
    | nil =>
      rw [try_dequeue_stale q s m p item hm hfirst hd hp hheap]
      exact update_handle_same q _ p _ hp i
    | cons front rest =>
      rw [try_dequeue_pop q s m p item front rest hm hfirst hd hp hheap]
      exact update_handle_same q _ p _ hp i

/-- C10 (guards never outlive a public call).  From a table in which every
handle is present, each of `enqueue`, `enqueue_bulk`, `try_dequeue` and
`try_dequeue_bulk` returns, and in the table it leaves every one of the 32
slots holds a pointer again, the very pointer it held before the call (so,
call after call, the one the constructor stored there): no queue object is
left owned, dropped or stored into another slot. -/
theorem guards_released (q : lf_queue T) (fuel h : Nat) (hints : Nat → Nat)
    (x item : T) (xs : List T) (count want : Nat)
    (hq : quiescent q) (hfuel : 0 < fuel) :
    (∃ q1, enqueue fuel q h x = some (true, q1) ∧ handles_restored q q1) ∧
    (∃ q1, enqueue_bulk fuel q h xs count = some (true, q1) ∧ handles_restored q q1) ∧
    handles_restored q (try_dequeue q h item).2.2 ∧
    (∃ k out q1, try_dequeue_bulk q hints want = some (k, out, q1) ∧
      handles_restored q q1) := by
  obtain ⟨p, hp⟩ := Option.ne_none_iff_exists'.mp (hq (index_at h 0))
  have hfirst : ∀ k, k < 0 → (q.data_ (index_at h k)).atomic_ptr = none :=
    fun k hk => absurd hk (Nat.not_lt_zero k)
  refine ⟨⟨_, enqueue_eq fuel q h 0 p x hfuel hfirst hp, fun i => ?_⟩,
    ⟨_, enqueue_bulk_eq fuel q h 0 p xs count hfuel hfirst hp, fun i => ?_⟩,
    fun i => ?_, ?_⟩
  · have := update_handle_same q (index_at h 0) p true hp i
    exact ⟨this, this ▸ hq i⟩
  · have := update_handle_same q (index_at h 0) p
      (!(q.heap p ++ xs.take count).isEmpty) hp i
    exact ⟨this, this ▸ hq i⟩
  · have := try_dequeue_handles q h item i
    exact ⟨this, this ▸ hq i⟩
  · obtain ⟨out, q1, h1, _, _, h4⟩ := try_dequeue_bulk_total q hints want
    exact ⟨out.length, out, q1, h1, fun i => ⟨h4 i, (h4 i) ▸ hq i⟩⟩

/-- Witness of C10 at the freshly constructed queue. -/
theorem guards_released_witness :
    (∃ q1, enqueue 1 (lf_queue.new : lf_queue Nat) 5 7 = some (true, q1) ∧
      handles_restored lf_queue.new q1) ∧
    (∃ q1, enqueue_bulk 1 (lf_queue.new : lf_queue Nat) 5 [1, 2] 2 = some (true, q1) ∧
      handles_restored lf_queue.new q1) ∧
    handles_restored lf_queue.new (try_dequeue (lf_queue.new : lf_queue Nat) 5 0).2.2 ∧
    (∃ k out q1, try_dequeue_bulk (lf_queue.new : lf_queue Nat) (fun _ => 5) 4 =
        some (k, out, q1) ∧ handles_restored lf_queue.new q1) :=
  guards_released lf_queue.new 1 5 (fun _ => 5) 7 0 [1, 2] 2 4
    (fun i => by simp [lf_queue.new]) (by decide)

/-! ## Bulk dequeue works on a copy -/

/-- C1, evaluated: one `enqueue` of 7 on the fresh queue (hint 0), then
`try_dequeue_bulk` of one item (hint 0).  The call returns 1 and writes
`[7]`, and the number of stored elements is 1 before the call and still 1
after it: the element it delivered has not been removed. -/
theorem try_dequeue_bulk_keeps_elements :
    ((enqueue 1 (lf_queue.new : lf_queue Nat) 0 7).bind fun r =>
      (try_dequeue_bulk r.2 (fun _ => 0) 1).map fun t =>
        (stored r.2, t.1, t.2.1, stored t.2.2)) = some (1, 1, [7], 1) := by
  decide

/-- C6, evaluated: `enqueue` of 7 with hint 0 and of 8 with hint 1 on the
fresh queue, then `try_dequeue_bulk` of five items (hint 0).  Two elements
are stored, the call returns 5 and writes `[7, 8, 7, 8, 7]`: stored elements
are delivered more than once and the count exceeds what was stored. -/
theorem try_dequeue_bulk_repeats_elements :
    ((enqueue 1 (lf_queue.new : lf_queue Nat) 0 7).bind fun r1 =>
      (enqueue 1 r1.2 1 8).bind fun r2 =>
        (try_dequeue_bulk r2.2 (fun _ => 0) 5).map fun t =>
          (stored r2.2, t.1, t.2.1)) = some (2, 5, [7, 8, 7, 8, 7]) := by
  decide

/-! ## Acquisition and release, on their own -/

theorem index_at_mask (s i : Nat) : (index_at s i).val = (s + i) &&& 31 := by
  rw [index_at_val]
  exact (Nat.and_pow_two_sub_one_eq_mod (s + i) 5).symm

/-- C12 (result of `acquire_queue_dequeue`), for every table and start index
`s` (in particular every 32-bit one).  The index examined at iteration `i`
is `(s + i) & 31`; over `i = 0..31` these visit every shard exactly once.
The returned guard is null if and only if no shard has its flag true and its
handle present, and then the table is unchanged.  Otherwise, with `m` the
first iteration whose shard has flag true and handle present and `p` the
pointer in that handle, the guard is `{index_at s m, p}` and the table
differs from the one before only in that this handle is empty. -/
theorem acquire_queue_dequeue_result (q : lf_queue T) (s : Nat) :
    (∀ i, (index_at s i).val = (s + i) &&& 31) ∧
    (∀ j : Fin num_queues, ∃ i, i < num_queues ∧ index_at s i = j ∧
      ∀ k, k < num_queues → index_at s k = j → k = i) ∧
    ((acquire_queue_dequeue q s).1.ptr_ = none ↔ ∀ j, ¬ dirty_present q j) ∧
    ((∀ j, ¬ dirty_present q j) →
      acquire_queue_dequeue q s = ({ index_ := 0, ptr_ := none }, q)) ∧
    (∀ m p, m < num_queues →
      (∀ k, k < m → ¬ dirty_present q (index_at s k)) →
      (q.data_ (index_at s m)).dirty_ = true →
      (q.data_ (index_at s m)).atomic_ptr = some p →
      acquire_queue_dequeue q s = ({ index_ := index_at s m, ptr_ := some p },
        { data_ := Function.update q.data_ (index_at s m)
            { atomic_ptr := none, dirty_ := true }
          heap := q.heap })) := by
  refine ⟨index_at_mask s, fun j => ?_, ?_, acquire_queue_dequeue_none q s,
    fun m p hm hfirst hd hp => ?_⟩
  · obtain ⟨i, hi, hj⟩ := index_at_surj s j
    exact ⟨i, hi, hj, fun k hk hkj => index_at_inj s k i hk hi (hkj.trans hj.symm)⟩
  · rcases acquire_queue_dequeue_spec q s with ⟨h1, h2⟩ | ⟨m, p, _, _, h3, h4, h5⟩
    · rw [h1]
      exact ⟨fun _ => h2, fun _ => rfl⟩
    · rw [h5]
      refine ⟨fun h => absurd h (by simp), fun h => ?_⟩
      exact absurd ⟨h3, by simp [h4]⟩ (h (index_at s m))
  · rw [acquire_queue_dequeue_first q s m p hm hfirst hd hp]
    simp only [Prod.mk.injEq, true_and]
    apply lf_queue.ext
    · simp [hd]
    · rfl

/-- Witness of C12: on the fresh queue nothing is found; with shard 5
flagged and scanned from start index 3 the guard is for shard 5, found at
iteration 2. -/
theorem acquire_queue_dequeue_result_witness :
    acquire_queue_dequeue (lf_queue.new : lf_queue Nat) 3 =
      ({ index_ := 0, ptr_ := none }, lf_queue.new) ∧
    acquire_queue_dequeue ((lf_queue.new : lf_queue Nat).store_dirty 5 true) 3 =
      ({ index_ := index_at 3 2, ptr_ := some 5 },
        { data_ := Function.update ((lf_queue.new : lf_queue Nat).store_dirty 5 true).data_
            (index_at 3 2) { atomic_ptr := none, dirty_ := true }
          heap := ((lf_queue.new : lf_queue Nat).store_dirty 5 true).heap }) :=
  ⟨(acquire_queue_dequeue_result lf_queue.new 3).2.2.2.1 (by decide),
   (acquire_queue_dequeue_result _ 3).2.2.2.2 2 5 (by decide) (by decide) (by decide)
     (by decide)⟩

theorem acquire_queue_from_ne_null (q : lf_queue T) (s fuel i : Nat)
    (g : queue_holder) (q1 : lf_queue T)
    (h : acquire_queue_from q s fuel i = some (g, q1)) : g.ptr_ ≠ none := by
  induction fuel generalizing i with
  | zero => simp [acquire_queue_from] at h
  | succ fuel ih =>
    unfold acquire_queue_from at h
    cases hp : (q.data_ (index_at s i)).atomic_ptr with
    | none =>
      simp only [hp] at h
      exact ih (i + 1) h
    | some p =>
      simp only [hp, Option.some.injEq, Prod.mk.injEq] at h
      rw [← h.1]
      simp

/-- C13 (`acquire_queue` terminates when a shard is free).  In a table with
at least one handle present that nothing else changes, for every start
index `s` there is a first scan position `m < 32` whose handle is present;
with fuel for `m + 1` probes (so at most 32) the scan returns the non-null
guard `{index_at s m, p}` and a table that differs from the one before only
in that this handle is empty (every flag and every other handle as they
were).  Whenever `acquire_queue` returns, its guard is non-null. -/
theorem acquire_queue_terminates (q : lf_queue T) (s : Nat)
    (hfree : ∃ j, (q.data_ j).atomic_ptr ≠ none) :
    (∃ m p, m < num_queues ∧
      (∀ k, k < m → (q.data_ (index_at s k)).atomic_ptr = none) ∧
      (q.data_ (index_at s m)).atomic_ptr = some p ∧
      ∀ fuel, m < fuel →
        acquire_queue fuel q s = some ({ index_ := index_at s m, ptr_ := some p },
          { data_ := Function.update q.data_ (index_at s m)
              { atomic_ptr := none, dirty_ := (q.data_ (index_at s m)).dirty_ }
            heap := q.heap })) ∧
    (∀ fuel g q1, acquire_queue fuel q s = some (g, q1) → g.ptr_ ≠ none) := by
  obtain ⟨m, p, hm, hfirst, hp⟩ := exists_first_present q s hfree
  exact ⟨⟨m, p, hm, hfirst, hp, fun fuel hf => acquire_queue_first fuel q s m p hf hfirst hp⟩,
    fun fuel g q1 h => acquire_queue_from_ne_null q s fuel 0 g q1 h⟩

/-- Witness of C13 at the fresh queue with start index 5. -/
theorem acquire_queue_terminates_witness :
    (∃ m p, m < num_queues ∧
      (∀ k, k < m → ((lf_queue.new : lf_queue Nat).data_ (index_at 5 k)).atomic_ptr = none) ∧
      ((lf_queue.new : lf_queue Nat).data_ (index_at 5 m)).atomic_ptr = some p ∧
      ∀ fuel, m < fuel →
        acquire_queue fuel (lf_queue.new : lf_queue Nat) 5 =
          some ({ index_ := index_at 5 m, ptr_ := some p },
            { data_ := Function.update (lf_queue.new : lf_queue Nat).data_ (index_at 5 m)
                { atomic_ptr := none,
                  dirty_ := ((lf_queue.new : lf_queue Nat).data_ (index_at 5 m)).dirty_ }
              heap := (lf_queue.new : lf_queue Nat).heap })) ∧
    (∀ fuel g q1, acquire_queue fuel (lf_queue.new : lf_queue Nat) 5 = some (g, q1) →
      g.ptr_ ≠ none) :=
  acquire_queue_terminates lf_queue.new 5 ⟨0, by decide⟩

/-- C14 (guard release effect).  The destructor of a guard that owns queue
object `p` of shard `i` sets the flag of shard `i` to "`p` is non-empty" and
stores `p` into the handle of shard `i`; no other slot and no contents
change.  The destructor of a null guard (the "not found" guard), of the
source of a move construction and of the source of a move assignment leaves
the table as it is. -/
theorem destructor_effect (q : lf_queue T) (i p : Fin num_queues) (g r : queue_holder) :
    queue_holder.destructor { index_ := i, ptr_ := some p } q =
      { data_ := Function.update q.data_ i
          { atomic_ptr := some p, dirty_ := !(q.heap p).isEmpty }
        heap := q.heap } ∧
    queue_holder.destructor { index_ := i, ptr_ := none } q = q ∧
    r.move_construct.2.destructor q = q ∧
    (g.move_assign r q).2.1.destructor q = q := by
  refine ⟨?_, rfl, rfl, rfl⟩
  apply lf_queue.ext
  · simp [queue_holder.destructor]
  · rfl

/-- On a target that owns a queue object, move assignment and
destructor-then-take return the same guards and leave the same handles and
contents; they can differ only in the flag of the released shard. -/
theorem move_assign_handles (g r : queue_holder) (q : lf_queue T) (p : Fin num_queues)
    (hp : g.ptr_ = some p) :
    (g.move_assign r q).1 = (g.destroy_then_take r q).1 ∧
    (g.move_assign r q).2.1 = (g.destroy_then_take r q).2.1 ∧
    (g.move_assign r q).2.2.heap = (g.destroy_then_take r q).2.2.heap ∧
    ∀ i, ((g.move_assign r q).2.2.data_ i).atomic_ptr =
      ((g.destroy_then_take r q).2.2.data_ i).atomic_ptr := by
  refine ⟨rfl, rfl, (destructor_heap g q).symm, fun i => ?_⟩
  show ((q.store g.index_ g.ptr_).data_ i).atomic_ptr = ((g.destructor q).data_ i).atomic_ptr
  unfold queue_holder.destructor
  rw [hp]
  simp only [store_data, store_dirty_data, Function.update_idem, Function.update_same]
  by_cases h : i = g.index_
  · rw [h, Function.update_same, Function.update_same]
  · rw [Function.update_noteq h, Function.update_noteq h]

/-- C15, evaluated at two re-assignments.
(a) Target in the "not found" state `{0, nullptr}` on the fresh queue (what
`acquire_queue_dequeue` returns there), source another "not found" guard:
the move assignment stores the null pointer into slot 0, whose handle is
then empty, while destructor-then-take leaves slot 0 holding its queue.
(b) Target owning shard 3, through which 7 was pushed while the flag of
shard 3 was false: after the move assignment slot 3 holds its queue with the
flag still false, while destructor-then-take sets the flag to true. -/
theorem move_assign_differs :
    (((queue_holder.move_assign { index_ := 0, ptr_ := none } { index_ := 0, ptr_ := none }
          (lf_queue.new : lf_queue Nat)).2.2.data_ 0).atomic_ptr = none ∧
      ((queue_holder.destroy_then_take { index_ := 0, ptr_ := none }
          { index_ := 0, ptr_ := none }
          (lf_queue.new : lf_queue Nat)).2.2.data_ 0).atomic_ptr = some 0) ∧
    ((queue_holder.move_assign { index_ := 3, ptr_ := some 3 } { index_ := 0, ptr_ := none }
          (((lf_queue.new : lf_queue Nat).store 3 none).write 3 [7])).2.2.data_ 3 =
        { atomic_ptr := some 3, dirty_ := false } ∧
      (queue_holder.destroy_then_take { index_ := 3, ptr_ := some 3 }
          { index_ := 0, ptr_ := none }
          (((lf_queue.new : lf_queue Nat).store 3 none).write 3 [7])).2.2.data_ 3 =
        { atomic_ptr := some 3, dirty_ := true }) := by
  decide

/-! ## Number of shards drained by one bulk dequeue -/

theorem try_dequeue_bulk_traced_loop_erase (hints : Nat → Nat) (items fuel : Nat)
    (q : lf_queue T) (g : queue_holder) (count iters : Nat) (output : List T)
    (drained : List (Fin num_queues)) :
    (try_dequeue_bulk_traced_loop hints items fuel q g count iters output drained).map
        Prod.snd =
      try_dequeue_bulk_loop hints items fuel q g count iters output := by
  induction fuel generalizing q g count iters output drained with
  | zero => rfl
  | succ fuel ih =>
    unfold try_dequeue_bulk_traced_loop try_dequeue_bulk_loop
    cases g.ptr_ with
    | none => rfl
    | some p =>
      simp only []
      split_ifs
      · rfl
      · rfl
      · exact ih _ _ _ _ _ _
      · rfl

/-- Dropping the record of drained shards from `try_dequeue_bulk_traced`
gives `try_dequeue_bulk`. -/
theorem try_dequeue_bulk_traced_erase (q : lf_queue T) (hints : Nat → Nat) (items : Nat) :
    (try_dequeue_bulk_traced q hints items).map Prod.snd =
      try_dequeue_bulk q hints items :=
  try_dequeue_bulk_traced_loop_erase hints items _ _ _ _ _ _ _

set_option maxRecDepth 100000 in
/-- C16, evaluated: `enqueue` of 7 with hint 0 and of 8 with hint 1 on the
fresh queue, then `try_dequeue_bulk` of 40 items (hint 0).  The call
returns, having executed its loop body 33 times, each time on a freshly
acquired shard (shards 0 and 1 in turn), one more than the 32 shards. -/
theorem try_dequeue_bulk_drains_33 :
    ((enqueue 1 (lf_queue.new : lf_queue Nat) 0 7).bind fun r1 =>
      (enqueue 1 r1.2 1 8).bind fun r2 =>
        (try_dequeue_bulk_traced r2.2 (fun _ => 0) 40).map fun t =>
          (t.1.length, t.1.take 4, t.2.1)) = some (33, [0, 1, 0, 1], 33) := by
  decide

/-! ## Flags in sequential use -/

theorem destructor_flags (q : lf_queue T) (g : queue_holder)
    (hexact : ∀ i, (q.data_ i).dirty_ = !(q.heap i).isEmpty)
    (hg : ∀ p, g.ptr_ = some p → p = g.index_) (i : Fin num_queues) :
    ((g.destructor q).data_ i).dirty_ = (q.data_ i).dirty_ := by
  unfold queue_holder.destructor
  cases hptr : g.ptr_ with
  | none => rfl
  | some p =>
    have hp := hg p hptr
    subst hp
    simp only [store_data, store_dirty_data, Function.update_idem, Function.update_same]
    by_cases hi : i = g.index_
    · rw [hi, Function.update_same, hexact]
    · rw [Function.update_noteq hi]

theorem store_flag (q : lf_queue T) (i : Fin num_queues) (p : pointer)
    (j : Fin num_queues) :
    ((q.store i p).data_ j).dirty_ = (q.data_ j).dirty_ := by
  rw [store_data]
  by_cases h : j = i
  · rw [h, Function.update_same]
  · rw [Function.update_noteq h]

theorem store_handle (q : lf_queue T) (i : Fin num_queues) (p : pointer)
    (j : Fin num_queues) :
    ((q.store i p).data_ j).atomic_ptr = if j = i then p else (q.data_ j).atomic_ptr := by
  rw [store_data]
  by_cases h : j = i
  · rw [h, Function.update_same, if_pos rfl]
  · rw [Function.update_noteq h, if_neg h]

theorem try_dequeue_bulk_loop_flags (hints : Nat → Nat) (items fuel : Nat)
    (q : lf_queue T) (g : queue_holder) (count iters : Nat) (output : List T)
    (hexact : ∀ i, (q.data_ i).dirty_ = !(q.heap i).isEmpty)
    (hhandles : ∀ i p, (q.data_ i).atomic_ptr = some p → p = i)
    (hg : ∀ p, g.ptr_ = some p → p = g.index_)
    (r : Nat × List T × lf_queue T)
    (hr : try_dequeue_bulk_loop hints items fuel q g count iters output = some r)
    (i : Fin num_queues) :
    (r.2.2.data_ i).dirty_ = (q.data_ i).dirty_ := by
  induction fuel generalizing q g count iters output with
  | zero => simp [try_dequeue_bulk_loop] at hr
  | succ fuel ih =>
    unfold try_dequeue_bulk_loop at hr
    cases hptr : g.ptr_ with
    | none =>
      simp only [hptr, Option.some.injEq] at hr
      rw [← hr]
      exact destructor_flags q g hexact hg i
    | some p =>
      simp only [hptr] at hr
      have hpi : p = g.index_ := hg p hptr
      split_ifs at hr with h1 h2 h3
      · simp only [Option.some.injEq] at hr
        rw [← hr]
        exact destructor_flags q g hexact hg i
      · simp only [Option.some.injEq] at hr
        rw [← hr]
        exact destructor_flags q g hexact hg i
      · rcases acquire_queue_dequeue_spec q (hints (iters + 1)) with
          ⟨e1, _⟩ | ⟨m, p1, _, _, _, e4, e5⟩
        · rw [e1] at hr
          have := ih (q.store g.index_ g.ptr_) { index_ := 0, ptr_ := none } _ _ _
            (fun j => by rw [store_flag, store_heap]; exact hexact j)
            (fun j p2 hj => by
              rw [store_handle, hptr] at hj
              split_ifs at hj with hji
              · rw [hji, ← hpi]
                exact (Option.some.inj hj).symm
              · exact hhandles j p2 hj)
            (fun p2 hp2 => by simp at hp2) hr
          rw [this, store_flag]
        · rw [e5] at hr
          have := ih ((q.store (index_at (hints (iters + 1)) m) none).store g.index_ g.ptr_)
            { index_ := index_at (hints (iters + 1)) m, ptr_ := some p1 } _ _ _
            (fun j => by rw [store_flag, store_flag, store_heap, store_heap]; exact hexact j)
            (fun j p2 hj => by
              rw [store_handle, hptr] at hj
              split_ifs at hj with hji
              · rw [hji, ← hpi]
                exact (Option.some.inj hj).symm
              · rw [store_handle] at hj
                split_ifs at hj with hjm
                exact hhandles j p2 hj)
            (fun p2 hp2 => by
              have : p1 = p2 := Option.some.inj hp2
              rw [← this]
              exact hhandles _ p1 e4) hr
          rw [this, store_flag, store_flag]
      · simp only [Option.some.injEq] at hr
        rw [← hr]
        exact destructor_flags q g hexact hg i

theorem seq_inv_update (q : lf_queue T) (j : Fin num_queues) (l : List T)
    (hinv : seq_inv q) :
    seq_inv
      ({ data_ := Function.update q.data_ j { atomic_ptr := some j, dirty_ := !l.isEmpty }
         heap := Function.update q.heap j l } : lf_queue T) := by
  refine ⟨fun i => ?_, fun i => ?_⟩
  · by_cases hi : i = j
    · subst hi
      simp
    · simp only [Function.update_noteq hi]
      exact hinv.1 i
  · by_cases hi : i = j
    · subst hi
      simp
    · simp only [Function.update_noteq hi]
      exact hinv.2 i

theorem seq_inv_enqueue_bulk (q q1 : lf_queue T) (fuel s : Nat) (xs : List T) (count : Nat)
    (b : Bool) (hinv : seq_inv q) (h : enqueue_bulk fuel q s xs count = some (b, q1)) :
    seq_inv q1 := by
  cases fuel with
  | zero => simp [enqueue_bulk, acquire_queue, acquire_queue_from] at h
  | succ fuel =>
    rw [enqueue_bulk_eq (fuel + 1) q s 0 (index_at s 0) xs count (Nat.succ_pos _)
      (fun k hk => absurd hk (Nat.not_lt_zero k)) (hinv.1 _)] at h
    simp only [Option.some.injEq, Prod.mk.injEq] at h
    rw [← h.2]
    exact seq_inv_update q (index_at s 0) _ hinv

theorem seq_inv_enqueue (q q1 : lf_queue T) (fuel s : Nat) (x : T)
    (b : Bool) (hinv : seq_inv q) (h : enqueue fuel q s x = some (b, q1)) :
    seq_inv q1 := by
  cases fuel with
  | zero => simp [enqueue, acquire_queue, acquire_queue_from] at h
  | succ fuel =>
    rw [enqueue_eq (fuel + 1) q s 0 (index_at s 0) x (Nat.succ_pos _)
      (fun k hk => absurd hk (Nat.not_lt_zero k)) (hinv.1 _)] at h
    simp only [Option.some.injEq, Prod.mk.injEq] at h
    rw [← h.2]
    have := seq_inv_update q (index_at s 0) (q.heap (index_at s 0) ++ [x]) hinv
    have he : (q.heap (index_at s 0) ++ [x]).isEmpty = false := by
      cases q.heap (index_at s 0) <;> rfl
    rw [he] at this
    exact this

theorem seq_inv_try_dequeue (q : lf_queue T) (s : Nat) (item : T) (hinv : seq_inv q) :
    seq_inv (try_dequeue q s item).2.2 := by
  rcases acquire_queue_dequeue_spec q s with ⟨_, h2⟩ | ⟨m, p, hm, hfirst, hd, hp, _⟩
  · rw [try_dequeue_none q s item h2]
    exact hinv
  · have hpm : p = index_at s m := (Option.some.inj ((hinv.1 _).symm.trans hp)).symm
    subst hpm
    cases hheap : q.heap (index_at s m) with
    | nil =>
      rw [try_dequeue_stale q s m _ item hm hfirst hd hp hheap]
      have := seq_inv_update q (index_at s m) [] hinv
      rw [← hheap, Function.update_eq_self] at this
      rw [hheap] at this
      exact this
    | cons front rest =>
      rw [try_dequeue_pop q s m _ item front rest hm hfirst hd hp hheap]
      exact seq_inv_update q (index_at s m) rest hinv

theorem seq_inv_try_dequeue_bulk (q q1 : lf_queue T) (hints : Nat → Nat) (items k : Nat)
    (out : List T) (hinv : seq_inv q)
    (h : try_dequeue_bulk q hints items = some (k, out, q1)) :
    seq_inv q1 := by
  obtain ⟨out1, q2, h1, _, hheap, hhandles⟩ := try_dequeue_bulk_total q hints items
  have hq : q2 = q1 := by
    rw [h1] at h
    simp only [Option.some.injEq, Prod.mk.injEq] at h
    exact h.2.2
  subst hq
  have horig : ∀ i p, (q.data_ i).atomic_ptr = some p → p = i := fun i p hi =>
    (Option.some.inj ((hinv.1 i).symm.trans hi)).symm
  have hflags : ∀ i, (q2.data_ i).dirty_ = (q.data_ i).dirty_ := by
    intro i
    unfold try_dequeue_bulk at h
    rcases acquire_queue_dequeue_spec q (hints 0) with ⟨e1, _⟩ | ⟨m, p1, _, _, _, e4, e5⟩
    · rw [e1] at h
      exact try_dequeue_bulk_loop_flags hints items _ q _ 0 0 [] hinv.2 horig
        (fun p2 hp2 => by simp at hp2) _ h i
    · rw [e5] at h
      have := try_dequeue_bulk_loop_flags hints items _ (q.store (index_at (hints 0) m) none)
        { index_ := index_at (hints 0) m, ptr_ := some p1 } 0 0 []
        (fun j => by rw [store_flag, store_heap]; exact hinv.2 j)
        (fun j p2 hj => by
          rw [store_handle] at hj
          split_ifs at hj with hjm
          exact horig j p2 hj)
        (fun p2 hp2 => by
          have : p1 = p2 := Option.some.inj hp2
          rw [← this]
          exact horig _ p1 e4) _ h i
      rw [this, store_flag]
  refine ⟨fun i => (hhandles i).trans (hinv.1 i), fun i => ?_⟩
  rw [hflags i, hheap]
  exact hinv.2 i

theorem seq_reachable_inv (q : lf_queue T) (h : seq_reachable q) : seq_inv q := by
  induction h with
  | constructed => exact ⟨fun _ => rfl, fun _ => rfl⟩
  | by_enqueue fuel s x b _ henq ih => exact seq_inv_enqueue _ _ fuel s x b ih henq
  | by_enqueue_bulk fuel s xs count b _ _ henq ih =>
    exact seq_inv_enqueue_bulk _ _ fuel s xs count b ih henq
  | by_try_dequeue s item _ ih => exact seq_inv_try_dequeue _ s item ih
  | by_try_dequeue_bulk hints items k out _ hdeq ih =>
    exact seq_inv_try_dequeue_bulk _ _ hints items k out ih hdeq

theorem stored_pos_iff (q : lf_queue T) : 0 < stored q ↔ ∃ p, q.heap p ≠ [] := by
  unfold stored
  rw [Nat.pos_iff_ne_zero, Ne, Finset.sum_eq_zero_iff]
  simp only [Finset.mem_univ, true_implies, not_forall, List.length_eq_zero]

theorem try_dequeue_true_iff (q : lf_queue T) (s : Nat) (item : T) (hinv : seq_inv q) :
    (try_dequeue q s item).1 = true ↔ 0 < stored q := by
  rw [stored_pos_iff]
  rcases acquire_queue_dequeue_spec q s with ⟨_, h2⟩ | ⟨m, p, hm, hfirst, hd, hp, _⟩
  · rw [try_dequeue_none q s item h2]
    refine ⟨fun h => absurd h (by simp), fun ⟨p, hp⟩ => ?_⟩
    refine absurd ⟨?_, by simp [hinv.1 p]⟩ (h2 p)
    rw [hinv.2 p]
    cases hl : q.heap p with
    | nil => exact absurd hl hp
    | cons a l => rfl
  · have hpm : p = index_at s m := (Option.some.inj ((hinv.1 _).symm.trans hp)).symm
    subst hpm
    cases hheap : q.heap (index_at s m) with
    | nil =>
      rw [hinv.2, hheap] at hd
      exact absurd hd (by simp)
    | cons front rest =>
      rw [try_dequeue_pop q s m _ item front rest hm hfirst hd hp hheap]
      exact ⟨fun _ => ⟨index_at s m, by simp [hheap]⟩, fun _ => rfl⟩

/-- C17 (the flag is exact in sequential use).  In every table reachable
from the constructed queue by calls of `enqueue`, `enqueue_bulk`,
`try_dequeue` and `try_dequeue_bulk` made one at a time with arbitrary
hints, every slot holds the queue object of its shard, the flag of every
shard is true if and only if that queue object is non-empty, and
`try_dequeue` (with any hint) returns true if and only if at least one
element is stored. -/
theorem hint_flag_exact (q : lf_queue T) (h : seq_reachable q) :
    (∀ i, (q.data_ i).atomic_ptr = some i) ∧
    (∀ i, (q.data_ i).dirty_ = true ↔ q.heap i ≠ []) ∧
    (∀ s item, (try_dequeue q s item).1 = true ↔ 0 < stored q) := by
  have hinv := seq_reachable_inv q h
  refine ⟨hinv.1, fun i => ?_, fun s item => try_dequeue_true_iff q s item hinv⟩
  rw [hinv.2 i]
  cases q.heap i <;> simp

theorem enqueue_new_single_shard (fuel h : Nat) (x : T) (hfuel : 0 < fuel) :
    enqueue fuel (lf_queue.new : lf_queue T) h x =
      some (true, single_shard (index_at h 0) [x]) := by
  have := enqueue_single_shard fuel h [] x hfuel
  rwa [single_shard_nil, List.nil_append] at this

/-- Witness of C17 at the table left by `enqueue(7)` with hint 5 on the
constructed queue followed by a `try_dequeue_bulk` of one item. -/
theorem hint_flag_exact_witness :
    (∀ i, ((single_shard 5 [7] : lf_queue Nat).data_ i).atomic_ptr = some i) ∧
    (∀ i, ((single_shard 5 [7] : lf_queue Nat).data_ i).dirty_ = true ↔
      (single_shard 5 [7] : lf_queue Nat).heap i ≠ []) ∧
    (∀ s item, (try_dequeue (single_shard 5 [7] : lf_queue Nat) s item).1 = true ↔
      0 < stored (single_shard 5 [7] : lf_queue Nat)) :=
  hint_flag_exact (single_shard 5 [7])
    (seq_reachable.by_try_dequeue_bulk (fun _ => 0) 1 1 [7]
      (seq_reachable.by_enqueue 1 5 7 true seq_reachable.constructed
        (enqueue_new_single_shard 1 5 7 (by decide)))
      (try_dequeue_bulk_single_shard (fun _ => 0) 5 [7]))

/-! ## The selector -/

/-- After `n` calls the countdown is 500 minus the position in a cycle of
length 501. -/
theorem get_index_calls_countdown (tsc_aux : Nat → Nat) (n k : Nat) (tl : thread_locals)
    (c : Nat) (hc : c ≤ 500) (htl : tl.countdown = (c : Int)) :
    (get_index_calls tsc_aux n k tl).2.countdown =
      ((500 - (500 - c + n) % 501 : Nat) : Int) := by
  induction n generalizing k tl c with
  | zero =>
    simp only [get_index_calls, htl, Nat.add_zero]
    congr 1
    omega
  | succ n ih =>
    simp only [get_index_calls]
    by_cases hpos : tl.countdown > 0
    · have hstep : get_index tl (tsc_aux k) =
          ((tl.cpuid + tl.local_offset) % 2 ^ 32,
            { tl with countdown := tl.countdown - 1 }) := by
        unfold get_index
        rw [if_pos hpos]
      rw [hstep]
      have hc1 : 0 < c := by
        rw [htl] at hpos
        exact_mod_cast hpos
      rw [ih (k + 1) _ (c - 1) (by omega) (by simp only [htl]; omega)]
      congr 2
      omega
    · have hstep : get_index tl (tsc_aux k) =
          ((tsc_aux k * 4 % 2 ^ 32 + tl.local_offset) % 2 ^ 32,
            { tl with cpuid := tsc_aux k * 4 % 2 ^ 32, countdown := 500 }) := by
        unfold get_index
        rw [if_neg hpos]
      rw [hstep]
      have hc0 : c = 0 := by
        rw [htl] at hpos
        have : ¬ (0 < c) := by exact_mod_cast hpos
        omega
      subst hc0
      rw [ih (k + 1) _ 500 (le_refl _) rfl]
      congr 2
      omega

theorem get_index_calls_add (tsc_aux : Nat → Nat) (n m k : Nat) (tl : thread_locals) :
    get_index_calls tsc_aux (n + m) k tl =
      ((get_index_calls tsc_aux n k tl).1 ++
          (get_index_calls tsc_aux m (k + n) (get_index_calls tsc_aux n k tl).2).1,
        (get_index_calls tsc_aux m (k + n) (get_index_calls tsc_aux n k tl).2).2) := by
  induction n generalizing k tl with
  | zero => simp [get_index_calls]
  | succ n ih =>
    rw [Nat.add_right_comm]
    simp only [get_index_calls, ih, List.cons_append]
    rw [Nat.add_assoc k 1 n, Nat.add_comm 1 n]

/-- While the countdown is positive the calls return the value of the cached
core id and only count down. -/
theorem get_index_calls_cached (tsc_aux : Nat → Nat) (n k : Nat) (tl : thread_locals)
    (h : (n : Int) ≤ tl.countdown) :
    get_index_calls tsc_aux n k tl =
      (List.replicate n ((tl.cpuid + tl.local_offset) % 2 ^ 32),
        { tl with countdown := tl.countdown - n }) := by
  induction n generalizing k tl with
  | zero => simp [get_index_calls]
  | succ n ih =>
    have hpos : tl.countdown > 0 := by
      have : ((n + 1 : Nat) : Int) = (n : Int) + 1 := by push_cast; rfl
      omega
    simp only [get_index_calls, get_index, if_pos hpos]
    rw [ih (k + 1) _ (by simp only; push_cast at h; omega)]
    simp only [List.replicate_succ, Prod.mk.injEq, true_and]
    congr 1
    push_cast
    omega

/-- One full cycle from a countdown of 500 (the state after initialisation
and after every re-sample): 500 calls return the cached value, the call
after them re-samples, and the countdown is 500 again. -/
theorem get_index_calls_cycle (tsc_aux : Nat → Nat) (k : Nat) (tl : thread_locals)
    (h : tl.countdown = 500) :
    get_index_calls tsc_aux 501 k tl =
      (List.replicate 500 ((tl.cpuid + tl.local_offset) % 2 ^ 32) ++
          [(tsc_aux (k + 500) * 4 % 2 ^ 32 + tl.local_offset) % 2 ^ 32],
        { tl with cpuid := tsc_aux (k + 500) * 4 % 2 ^ 32, countdown := 500 }) := by
  have e : (501 : Nat) = 500 + 1 := rfl
  rw [e, get_index_calls_add, get_index_calls_cached tsc_aux 500 k tl (by rw [h]; rfl)]
  simp only [get_index_calls, get_index, h]
  rfl

/-- C18, evaluated: a thread whose first call finds core 0 and counter 0,
with the hardware reporting the value `n` at the call number `n`.  The
calls 1 to 500 return the value of the cached core (0); the first call that
re-samples is call 501 (it returns `4 * 501`); the calls 502 to 1001 return
that cached value; the next re-sample is call 1002.  From one re-sample up
to and including the next there are 501 calls, not 500. -/
theorem get_index_resamples_every_501 :
    (get_index_calls (fun k => k + 1) 1002 0 (thread_locals.init 0 0).1).1 =
      List.replicate 500 0 ++ (4 * 501) :: List.replicate 500 (4 * 501) ++ [4 * 1002] := by
  have e : (1002 : Nat) = 501 + 501 := rfl
  rw [e, get_index_calls_add, get_index_calls_cycle _ 0 _ rfl, get_index_calls_cycle _ _ _ rfl]
  have h0 : int_and_3 0 = 0 := by decide
  simp only [thread_locals.init, h0]
  have h1 : (((0 : Int) * 4 % 2 ^ 32).toNat + 0) % 2 ^ 32 = 0 := by decide
  have h2 : ((0 + 500 + 1) * 4 % 2 ^ 32 + 0) % 2 ^ 32 = 4 * 501 := by decide
  have h3 : ((0 + 501 + 500 + 1) * 4 % 2 ^ 32 + 0) % 2 ^ 32 = 4 * (501 + 501) := by
    decide
  rw [h1, h2, h3, List.append_assoc, List.singleton_append, List.append_assoc,
    List.cons_append]

theorem and_three (k : Nat) : k &&& 3 = k % 4 :=
  Nat.and_pow_two_sub_one_eq_mod k 2

theorem int_and_3_eq (k : Int) : int_and_3 k = (k % 4).toNat := by
  unfold int_and_3
  rw [and_three]
  omega

theorem int_and_3_succ (k : Int) : int_and_3 (int_succ k) = (int_and_3 k + 1) % 4 := by
  rw [int_and_3_eq, int_and_3_eq]
  unfold int_succ
  omega

/-- C19 (affinity hint arithmetic).
(1) At a thread's first call with the shared `int` counter at `k`, the
offset is `k & 3` (two's complement), a value in 0..3 equal to `k` modulo 4;
the counter becomes `k + 1`, wrapped from `INT_MAX` to `INT_MIN`; the cached
value is `4 * c` as an `unsigned int` for the core id `c` found.
(2) A call that finds the cached core id `c` and does not re-sample returns
`4 * c + (k & 3)` as an `unsigned int` and keeps the cache; a call that
re-samples and reads core id `c` returns `4 * c + (k & 3)` as an
`unsigned int` and caches `c`; the offset never changes.  The starting shard
of the returned value is `(4 * c + (k & 3)) & 31`, whatever `c`.
(3) On one core, counter values that differ by a non-multiple of 4 give
distinct starting shards; the four counter values that four consecutive
`fetch_add(1)` return (also across the wrap) give four distinct ones.
(4) On different cores among 0..7 the starting shards are distinct whatever
the counter values. -/
theorem affinity_hint_arithmetic :
    (∀ (cpu k : Int),
      (thread_locals.init cpu k).1.local_offset = int_and_3 k ∧
      int_and_3 k = (k % 4).toNat ∧
      int_and_3 k < 4 ∧
      (thread_locals.init cpu k).2 = int_succ k ∧
      (-2 ^ 31 ≤ k → k < 2 ^ 31 - 1 → int_succ k = k + 1) ∧
      int_succ (2 ^ 31 - 1) = -2 ^ 31) ∧
    (∀ (c : Nat) (k : Int), (thread_locals.init (c : Int) k).1.cpuid = 4 * c % 2 ^ 32) ∧
    (∀ (tl : thread_locals) (c : Nat) (k : Int) (tsc_aux : Nat),
      tl.cpuid = 4 * c % 2 ^ 32 → tl.local_offset = int_and_3 k → 0 < tl.countdown →
      (get_index tl tsc_aux).1 = (4 * c + int_and_3 k) % 2 ^ 32 ∧
      (get_index tl tsc_aux).2.cpuid = 4 * c % 2 ^ 32 ∧
      (get_index tl tsc_aux).2.local_offset = int_and_3 k) ∧
    (∀ (tl : thread_locals) (c : Nat) (k : Int),
      tl.local_offset = int_and_3 k → tl.countdown ≤ 0 →
      (get_index tl c).1 = (4 * c + int_and_3 k) % 2 ^ 32 ∧
      (get_index tl c).2.cpuid = 4 * c % 2 ^ 32 ∧
      (get_index tl c).2.local_offset = int_and_3 k) ∧
    (∀ (c : Nat) (k : Int),
      index_at ((4 * c + int_and_3 k) % 2 ^ 32) 0 = index_at (4 * c + int_and_3 k) 0 ∧
      (index_at (4 * c + int_and_3 k) 0).val = (4 * c + int_and_3 k) &&& 31) ∧
    (∀ (c : Nat) (k1 k2 : Int), (k1 - k2) % 4 ≠ 0 →
      index_at (4 * c + int_and_3 k1) 0 ≠ index_at (4 * c + int_and_3 k2) 0) ∧
    (∀ (c : Nat) (k : Int),
      [index_at (4 * c + int_and_3 k) 0,
       index_at (4 * c + int_and_3 (int_succ k)) 0,
       index_at (4 * c + int_and_3 (int_succ (int_succ k))) 0,
       index_at (4 * c + int_and_3 (int_succ (int_succ (int_succ k)))) 0].Nodup) ∧
    (∀ (c1 c2 : Nat) (k1 k2 : Int), c1 < 8 → c2 < 8 → c1 ≠ c2 →
      index_at (4 * c1 + int_and_3 k1) 0 ≠ index_at (4 * c2 + int_and_3 k2) 0) := by
  refine ⟨fun cpu k => ⟨rfl, int_and_3_eq k, ?_, rfl, fun h1 h2 => ?_, by decide⟩,
    fun c k => ?_, fun tl c k aux h1 h2 h4 => ?_, fun tl c k h2 h4 => ?_,
    fun c k => ⟨?_, ?_⟩, fun c k1 k2 hk => ?_, fun c k => ?_,
    fun c1 c2 k1 k2 h1 h2 hc => ?_⟩
  · rw [int_and_3_eq]
    omega
  · unfold int_succ
    omega
  · show (((c : Int) * 4) % 2 ^ 32).toNat = 4 * c % 2 ^ 32
    omega
  · unfold get_index
    rw [if_pos h4]
    simp only [h1, h2]
    refine ⟨?_, trivial, trivial⟩
    omega
  · unfold get_index
    rw [if_neg (by omega)]
    simp only [h2]
    refine ⟨?_, ?_, trivial⟩ <;> omega
  · apply Fin.ext
    rw [index_at_val, index_at_val]
    omega
  · have := index_at_mask (4 * c + int_and_3 k) 0
    rwa [Nat.add_zero] at this
  · intro h
    have h1 := congrArg Fin.val h
    rw [index_at_val, index_at_val, int_and_3_eq, int_and_3_eq] at h1
    omega
  · have e1 := int_and_3_succ k
    have e2 := int_and_3_succ (int_succ k)
    have e3 := int_and_3_succ (int_succ (int_succ k))
    have hlt : int_and_3 k < 4 := by
      rw [int_and_3_eq]
      omega
    generalize int_and_3 (int_succ (int_succ (int_succ k))) = o3 at e3 ⊢
    generalize int_and_3 (int_succ (int_succ k)) = o2 at e2 e3 ⊢
    generalize int_and_3 (int_succ k) = o1 at e1 e2 ⊢
    generalize int_and_3 k = o0 at e1 hlt ⊢
    simp only [List.nodup_cons, List.mem_cons, List.mem_singleton, List.not_mem_nil,
      or_false, not_or, List.nodup_nil, and_true, Fin.ext_iff, index_at_val]
    refine ⟨⟨?_, ?_, ?_⟩, ⟨?_, ?_⟩, ?_, not_false⟩ <;> omega
  · intro h
    have h3 := congrArg Fin.val h
    rw [index_at_val, index_at_val, int_and_3_eq, int_and_3_eq] at h3
    omega

/-- Witness of C19: a thread initialised on core 5 with counter value 6,
called while its countdown is positive; counters 6 and 7 on core 5; cores 5
and 2. -/
theorem affinity_hint_arithmetic_witness :
    ((get_index (thread_locals.init 5 6).1 9).1 = (4 * 5 + int_and_3 6) % 2 ^ 32 ∧
      (get_index (thread_locals.init 5 6).1 9).2.cpuid = 4 * 5 % 2 ^ 32 ∧
      (get_index (thread_locals.init 5 6).1 9).2.local_offset = int_and_3 6) ∧
    index_at (4 * 5 + int_and_3 6) 0 ≠ index_at (4 * 5 + int_and_3 7) 0 ∧
    index_at (4 * 5 + int_and_3 6) 0 ≠ index_at (4 * 2 + int_and_3 6) 0 :=
  ⟨affinity_hint_arithmetic.2.2.1 (thread_locals.init 5 6).1 5 6 9 (by decide) (by decide)
      (by decide),
   affinity_hint_arithmetic.2.2.2.2.2.1 5 6 7 (by decide),
   affinity_hint_arithmetic.2.2.2.2.2.2.2 5 2 6 6 (by decide) (by decide) (by decide)⟩

/-! ## Mutual exclusion -/

theorem destructor_handle_some (q : lf_queue T) (g : queue_holder) (p j : Fin num_queues)
    (hp : g.ptr_ = some p) :
    ((g.destructor q).data_ j).atomic_ptr =
      if j = g.index_ then some p else (q.data_ j).atomic_ptr := by
  unfold queue_holder.destructor
  rw [hp]
  simp only [store_data, store_dirty_data, Function.update_idem, Function.update_same]
  by_cases h : j = g.index_
  · rw [h, Function.update_same, if_pos rfl]
  · rw [Function.update_noteq h, if_neg h]

theorem destructor_null (q : lf_queue T) (g : queue_holder) (hp : g.ptr_ = none) :
    g.destructor q = q := by
  unfold queue_holder.destructor
  rw [hp]

/-- The guards after a move from the guard `idr` into the guard `id`: a
guard that holds `q` afterwards is not the source, and what it holds was
held before by the source (if it is the target) or by itself. -/
theorem guards_after_move (guards : Nat → Option queue_holder) (id idr : Nat)
    (r : queue_holder) (hr : guards idr = some r)
    (id1 : Nat) (g1 : queue_holder) (q : Fin num_queues)
    (h1 : Function.update
        (Function.update guards id (some { index_ := r.index_, ptr_ := r.ptr_ }))
        idr (some { index_ := r.index_, ptr_ := none }) id1 = some g1)
    (hq : g1.ptr_ = some q) :
    id1 ≠ idr ∧ ∃ g0, guards (if id1 = id then idr else id1) = some g0 ∧
      g0.ptr_ = some q ∧ g0.index_ = g1.index_ := by
  by_cases e1 : id1 = idr
  · rw [e1, Function.update_same] at h1
    cases h1
    exact absurd hq (by simp)
  · rw [Function.update_noteq e1] at h1
    refine ⟨e1, ?_⟩
    by_cases e2 : id1 = id
    · rw [e2, Function.update_same] at h1
      cases h1
      exact ⟨r, by rw [if_pos e2]; exact hr, hq, rfl⟩
    · rw [Function.update_noteq e2] at h1
      exact ⟨g1, by rw [if_neg e2]; exact h1, hq, rfl⟩

theorem conc_step_inv (s s1 : shared_state T) (h : conc_step s s1) (hinv : conc_inv s) :
    conc_inv s1 := by
  obtain ⟨ha, hb, hc⟩ := hinv
  cases h with
  | acquire id i p hfree hp =>
    have hpi := ha i p hp
    subst hpi
    refine ⟨fun j q hj => ?_, fun id1 g q hg hq => ?_,
      fun id1 id2 g1 g2 q h1 h2 hq1 hq2 => ?_⟩
    · simp only [store_handle] at hj
      split_ifs at hj
      exact ha j q hj
    · simp only [store_handle, Function.update_apply] at hg ⊢
      split_ifs at hg with hid
      · cases hg
        cases hq
        simp
      · obtain ⟨h1, h2⟩ := hb id1 g q hg hq
        refine ⟨h1, ?_⟩
        split_ifs
        · rfl
        · exact h2
    · simp only [Function.update_apply] at h1 h2
      split_ifs at h1 h2 with e1 e2 e2
      · rw [e1, e2]
      · cases h1
        cases hq1
        have := (hb id2 g2 p h2 hq2).2
        rw [hp] at this
        exact absurd this (by simp)
      · cases h2
        cases hq2
        have := (hb id1 g1 p h1 hq1).2
        rw [hp] at this
        exact absurd this (by simp)
      · exact hc id1 id2 g1 g2 q h1 h2 hq1 hq2
  | not_found id hfree =>
    refine ⟨ha, fun id1 g q hg hq => ?_, fun id1 id2 g1 g2 q h1 h2 hq1 hq2 => ?_⟩
    · simp only [Function.update_apply] at hg
      split_ifs at hg with hid
      · cases hg
        exact absurd hq (by simp)
      · exact hb id1 g q hg hq
    · simp only [Function.update_apply] at h1 h2
      split_ifs at h1 h2 with e1 e2 e2
      · rw [e1, e2]
      · cases h1
        exact absurd hq1 (by simp)
      · cases h2
        exact absurd hq2 (by simp)
      · exact hc id1 id2 g1 g2 q h1 h2 hq1 hq2
  | access id g p l hg hp => exact ⟨ha, hb, hc⟩
  | destroy id g hg =>
    cases hptr : g.ptr_ with
    | none =>
      refine ⟨fun j q hj => ?_, fun id1 g1 q hg1 hq => ?_,
        fun id1 id2 g1 g2 q h1 h2 hq1 hq2 => ?_⟩
      · simp only [destructor_null _ g hptr] at hj
        exact ha j q hj
      · simp only [Function.update_apply, destructor_null _ g hptr] at hg1 ⊢
        split_ifs at hg1 with hid
        exact hb id1 g1 q hg1 hq
      · simp only [Function.update_apply] at h1 h2
        split_ifs at h1 h2 with e1 e2
        exact hc id1 id2 g1 g2 q h1 h2 hq1 hq2
    | some p =>
      obtain ⟨hgi, hgp⟩ := hb id g p hg hptr
      refine ⟨fun j q hj => ?_, fun id1 g1 q hg1 hq => ?_,
        fun id1 id2 g1 g2 q h1 h2 hq1 hq2 => ?_⟩
      · simp only [destructor_handle_some _ g p j hptr] at hj
        split_ifs at hj with hji
        · cases hj
          rw [hji, hgi]
        · exact ha j q hj
      · simp only [Function.update_apply] at hg1
        split_ifs at hg1 with hid
        obtain ⟨h1, h2⟩ := hb id1 g1 q hg1 hq
        refine ⟨h1, ?_⟩
        have hqp : q ≠ p := by
          intro e
          rw [e] at hq
          exact hid (hc id1 id g1 g p hg1 hg hq hptr)
        simp only [destructor_handle_some _ g p q hptr, hgi, if_neg hqp]
        exact h2
      · simp only [Function.update_apply] at h1 h2
        split_ifs at h1 h2 with e1 e2
        exact hc id1 id2 g1 g2 q h1 h2 hq1 hq2
  | move_assign id idr g r hne hg hr =>
    refine ⟨fun j q hj => ?_, fun id1 g1 q hg1 hq => ?_,
      fun id1 id2 g1 g2 q h1 h2 hq1 hq2 => ?_⟩
    · simp only [queue_holder.move_assign, store_handle] at hj
      split_ifs at hj with hji
      · rw [hji, ← (hb id g q hg hj).1]
      · exact ha j q hj
    · obtain ⟨hn, g0, h0, hq0, hi0⟩ := guards_after_move s.guards id idr r hr id1 g1 q hg1 hq
      obtain ⟨h1, h2⟩ := hb _ g0 q h0 hq0
      refine ⟨hi0 ▸ h1, ?_⟩
      show ((s.table.store g.index_ g.ptr_).data_ q).atomic_ptr = none
      rw [store_handle]
      split_ifs with hqi
      · cases hptr : g.ptr_ with
        | none => rfl
        | some p =>
          exfalso
          have hpq : p = q := by rw [hqi, (hb id g p hg hptr).1]
          have := hc _ _ g0 g q h0 hg hq0 (hpq ▸ hptr)
          split_ifs at this with e
          · exact hne this.symm
          · exact e this
      · exact h2
    · obtain ⟨hn1, g01, h01, hq01, _⟩ :=
        guards_after_move s.guards id idr r hr id1 g1 q h1 hq1
      obtain ⟨hn2, g02, h02, hq02, _⟩ :=
        guards_after_move s.guards id idr r hr id2 g2 q h2 hq2
      have := hc _ _ g01 g02 q h01 h02 hq01 hq02
      split_ifs at this <;> omega
  | move_construct id idr r hne hfree hr =>
    refine ⟨ha, fun id1 g1 q hg1 hq => ?_, fun id1 id2 g1 g2 q h1 h2 hq1 hq2 => ?_⟩
    · obtain ⟨_, g0, h0, hq0, hi0⟩ := guards_after_move s.guards id idr r hr id1 g1 q hg1 hq
      exact hi0 ▸ hb _ g0 q h0 hq0
    · obtain ⟨hn1, g01, h01, hq01, _⟩ :=
        guards_after_move s.guards id idr r hr id1 g1 q h1 hq1
      obtain ⟨hn2, g02, h02, hq02, _⟩ :=
        guards_after_move s.guards id idr r hr id2 g2 q h2 hq2
      have := hc _ _ g01 g02 q h01 h02 hq01 hq02
      split_ifs at this <;> omega

theorem conc_reachable_inv (s : shared_state T) (h : conc_reachable s) : conc_inv s := by
  induction h with
  | init =>
    refine ⟨fun i p hp => ?_, fun id g p hg _ => ?_, fun id1 _ g1 _ p h1 _ _ _ => ?_⟩
    · exact (Option.some.inj hp).symm
    · exact absurd hg (by simp [shared_state.init])
    · exact absurd h1 (by simp [shared_state.init])
  | next _ hstep ih => exact conc_step_inv _ _ hstep ih

/-- What holds of every configuration reachable by any interleaving of the
steps: a queue object is never held by two guards, a guard that holds it is
a guard for its own shard and then no handle holds it, and a handle only
holds the queue object of its own shard.  So every queue object is in at
most one place. -/
theorem never_two_owners (s : shared_state T) (h : conc_reachable s) (p : Fin num_queues) :
    (∀ id1 id2 g1 g2, s.guards id1 = some g1 → s.guards id2 = some g2 →
      g1.ptr_ = some p → g2.ptr_ = some p → id1 = id2) ∧
    (∀ id g, s.guards id = some g → g.ptr_ = some p →
      g.index_ = p ∧ ∀ i, (s.table.data_ i).atomic_ptr ≠ some p) ∧
    (∀ i, (s.table.data_ i).atomic_ptr = some p → i = p) := by
  obtain ⟨ha, hb, hc⟩ := conc_reachable_inv s h
  refine ⟨fun id1 id2 g1 g2 h1 h2 hq1 hq2 => hc id1 id2 g1 g2 p h1 h2 hq1 hq2,
    fun id g hg hq => ⟨(hb id g p hg hq).1, fun i hip => ?_⟩,
    fun i hip => (ha i p hip).symm⟩
  have := ha i p hip
  rw [← this, (hb id g p hg hq).2] at hip
  exact absurd hip (by simp)

/-- C11, evaluated: one thread, on the constructed queue, obtains the "not
found" guard twice from `acquire_queue_dequeue` and move-assigns the second
to the first.  The configuration is reachable by the steps, and in it queue
object 0 is in no place at all: the handle of shard 0 is empty, no handle
holds it and no live guard holds it. -/
theorem move_assign_loses_queue :
    conc_reachable lost_queue_state ∧
    (lost_queue_state.table.data_ 0).atomic_ptr = none ∧
    (∀ i, (lost_queue_state.table.data_ i).atomic_ptr ≠ some 0) ∧
    (∀ id g, lost_queue_state.guards id = some g → g.ptr_ ≠ some 0) := by
  refine ⟨?_, by decide, by decide, fun id g hg => ?_⟩
  · exact conc_reachable.next
      (conc_reachable.next
        (conc_reachable.next conc_reachable.init
          (conc_step.not_found shared_state.init 0 rfl))
        (conc_step.not_found _ 1 rfl))
      (conc_step.move_assign _ 0 1 { index_ := 0, ptr_ := none }
        { index_ := 0, ptr_ := none } (by decide) rfl rfl)
  · simp only [lost_queue_state, shared_state.init, Function.update_apply] at hg
    split_ifs at hg <;> cases hg <;> simp

end hin
